import Mathlib

/-!
Verification of the yamcts Monte Carlo Tree Search engine (src/lib.rs, src/rng.rs).

Shallow embedding conventions:
* `usize` indices and `u32` counters are modelled as `Nat`.  All claims concern
  counting behaviour far below `2^32`; in debug builds `u32` overflow panics
  rather than wraps, so non-wrapping `Nat` is the faithful model on the
  non-panicking executions the claims talk about.
* Rust loops whose termination depends on tree well-formedness are modelled
  with an explicit fuel argument; under the well-formedness invariant `WF`
  (proved preserved by every operation) the fuel bounds used by the wrappers
  are shown sufficient.
* Panics (`unwrap` on `None`, out-of-bounds indexing, `gen_range` over an
  empty range) are modelled by `Option`/dedicated error constructors.
* The `f64` UCT score `w/n + c * sqrt(ln n_p / n)` cannot be embedded exactly
  (floating point); selection is therefore parameterised by an arbitrary
  score function of the three integers `(w, n, n_p)` that the Rust code feeds
  into the formula, with values in `ℚ` standing for the totally ordered
  (`f64::total_cmp`) score space.  `uctQ` records the shape of the formula
  with the transcendental parts abstracted.
* The random source (`rng.rs`, trait `Rng`) is modelled as a list of naturals;
  `gen_range(0..hi)` consumes the head reduced mod `hi`, which is all the
  engine relies on (a value uniformly in `[0, hi)`).
-/

namespace Yamcts

/-- Replace the element at index `i` of a list by `f` applied to it;
out-of-range indices leave the list unchanged (models `Vec` in-place update
through a checked index). -/
def updateAt {α : Type _} : List α → Nat → (α → α) → List α
  | [], _, _ => []
  | x :: xs, 0, f => f x :: xs
  | x :: xs, i + 1, f => x :: updateAt xs i f

theorem length_updateAt {α : Type _} (l : List α) (i : Nat) (f : α → α) :
    (updateAt l i f).length = l.length := by
  induction l generalizing i with
  | nil => rfl
  | cons x xs ih =>
    cases i with
    | zero => rfl
    | succ j => simp [updateAt, ih]

theorem getElem?_updateAt_ne {α : Type _} :
    ∀ (l : List α) (i j : Nat) (f : α → α), j ≠ i →
      (updateAt l i f)[j]? = l[j]?
  | [], _, _, _, _ => rfl
  | x :: xs, 0, 0, f, h => absurd rfl h
  | x :: xs, 0, j + 1, f, _ => by simp [updateAt]
  | x :: xs, i + 1, 0, f, _ => by simp [updateAt]
  | x :: xs, i + 1, j + 1, f, h => by
    simpa [updateAt] using getElem?_updateAt_ne xs i j f (fun hc => h (by omega))

theorem getElem?_updateAt_eq {α : Type _} (l : List α) (i : Nat) (f : α → α) :
    (updateAt l i f)[i]? = (l[i]?).map f := by
  induction l generalizing i with
  | nil => rfl
  | cons x xs ih =>
    cases i with
    | zero => simp [updateAt]
    | succ j => simpa [updateAt] using ih j

theorem mem_updateAt {α : Type _} :
    ∀ (l : List α) (i : Nat) (f : α → α) (a : α), a ∈ updateAt l i f →
      a ∈ l ∨ ∃ b ∈ l, a = f b
  | [], _, _, _, h => absurd h (List.not_mem_nil _)
  | x :: xs, 0, f, a, h => by
    rcases List.mem_cons.mp h with h | h
    · exact Or.inr ⟨x, List.mem_cons_self x xs, h⟩
    · exact Or.inl (List.mem_cons_of_mem x h)
  | x :: xs, i + 1, f, a, h => by
    rcases List.mem_cons.mp h with h | h
    · exact Or.inl (h ▸ List.mem_cons_self x xs)
    · rcases mem_updateAt xs i f a h with h' | ⟨b, hb, hfb⟩
      · exact Or.inl (List.mem_cons_of_mem x h')
      · exact Or.inr ⟨b, List.mem_cons_of_mem x hb, hfb⟩

/-- Rust's `Iterator::max_by` specialised through a key function: fold that
keeps the accumulator only when it is strictly greater, so that among equal
keys the LAST element of the list wins (`std::cmp::max_by` returns the second
argument when the comparison is `Equal`). -/
def maxByLast {α β : Type _} [LinearOrder β] (key : α → β) : List α → Option α
  | [] => none
  | x :: xs => some (xs.foldl (fun m v => if key v < key m then m else v) x)

/-- Rust's `Iterator::enumerate` starting from a given counter value. -/
def enumF {α : Type _} : Nat → List α → List (Nat × α)
  | _, [] => []
  | k, x :: xs => (k, x) :: enumF (k + 1) xs

theorem length_enumF {α : Type _} (k : Nat) (l : List α) :
    (enumF k l).length = l.length := by
  induction l generalizing k with
  | nil => rfl
  | cons x xs ih => simp [enumF, ih]

theorem getElem?_enumF {α : Type _} (k j : Nat) (l : List α) :
    (enumF k l)[j]? = (l[j]?).map (fun x => (k + j, x)) := by
  induction l generalizing k j with
  | nil => simp [enumF]
  | cons x xs ih =>
    cases j with
    | zero => simp [enumF]
    | succ j' =>
      have h2 : k + 1 + j' = k + (j' + 1) := by omega
      simp [enumF, ih, h2]

theorem getElem_enumF {α : Type _} (k : Nat) (l : List α) (j : Nat)
    (hj : j < l.length) (hj2 : j < (enumF k l).length) :
    (enumF k l)[j] = (k + j, l[j]) := by
  have h1 : (enumF k l)[j]? = some ((enumF k l)[j]) :=
    List.getElem?_eq_getElem hj2
  rw [getElem?_enumF, List.getElem?_eq_getElem hj] at h1
  simp only [Option.map_some'] at h1
  injection h1 with h1
  exact h1.symm

/-- The search-space contract of trait `GameState` (src/lib.rs lines 18-44):
`all_moves`, `apply_move`, `is_terminal_state` and `terminal_is_win`,
abstracted over the state, move and outcome-descriptor types. -/
structure Game (σ μ υ : Type _) where
  all_moves : σ → List μ
  apply_move : σ → μ → σ
  is_terminal_state : σ → Option υ
  terminal_is_win : σ → υ → Bool

/-- A search-tree vertex (struct `Node`, src/lib.rs lines 46-55): visit count
`n`, win count `w`, the game state, arena indices of the children, and the
optional arena index of the parent. -/
structure Node (σ : Type _) where
  n : Nat
  w : Nat
  state : σ
  children : List Nat
  parent : Option Nat
  deriving DecidableEq, Repr

/-- Node construction (`Node::new`, src/lib.rs lines 61-69): one initial
visit, zero wins, no children. -/
def Node.new {σ : Type _} (t : σ) (parent : Option Nat) : Node σ :=
  ⟨1, 0, t, [], parent⟩

/-- The arena of nodes (struct `Tree`, src/lib.rs lines 72-75).  The
`exploration_factor : f64` field participates only through the UCT score,
which is abstracted into the score-function parameter of selection, so it is
not stored here. -/
structure Tree (σ : Type _) where
  nodes : List (Node σ)
  deriving DecidableEq, Repr

/-- Push a node into the arena and link it into its parent's children list
(`Tree::add_node_with_parent`, src/lib.rs lines 85-93); returns the new
tree and the index of the new node. -/
def Tree.add_node_with_parent {σ : Type _} (t : Tree σ) (nd : Node σ) :
    Tree σ × Nat :=
  let len := t.nodes.length
  let pushed := t.nodes ++ [nd]
  match nd.parent with
  | some p =>
    (⟨updateAt pushed p (fun pn => { pn with children := pn.children ++ [len] })⟩, len)
  | none => (⟨pushed⟩, len)

/-- Win count of the node at an index, defaulting to 0 out of range. -/
def Tree.statW {σ : Type _} (t : Tree σ) (c : Nat) : Nat :=
  ((t.nodes[c]?).map Node.w).getD 0

/-- Visit count of the node at an index, defaulting to 0 out of range. -/
def Tree.statN {σ : Type _} (t : Tree σ) (c : Nat) : Nat :=
  ((t.nodes[c]?).map Node.n).getD 0

/-- Shape of the UCT score (`Tree::uct`, src/lib.rs lines 96-104):
`w/n + ef * sqrt(ln n_p / n)`, with the `f64` logarithm and square root
abstracted as the function parameters `lq` and `sq` (floating point is not
embeddable exactly; any selection theorem below is parametric in the score). -/
def uctQ (ef : ℚ) (lq : Nat → ℚ) (sq : ℚ → ℚ) (w n np : Nat) : ℚ :=
  (w : ℚ) / (n : ℚ) + ef * sq (lq np / (n : ℚ))

/-- One selection step (the `max_by` expression in `Tree::select`, src/lib.rs
lines 117-121): score every child of node `p` from its `(w, n)` statistics and
the parent's visit count, and take the maximum under the total order, the last
child winning ties (`f64::total_cmp` through `Iterator::max_by`). -/
def chooseChild {σ α : Type _} [LinearOrder α] (score : Nat → Nat → Nat → α) (t : Tree σ)
    (p : Node σ) : Option (α × Nat) :=
  maxByLast Prod.fst (p.children.map fun c => (score (t.statW c) (t.statN c) p.n, c))

/-- The selection walk (`Tree::select`, src/lib.rs lines 107-131), fuelled:
from the current index, stop at a terminal state or a childless node,
otherwise descend into the best-scored child.  `none` models running out of
fuel or an out-of-bounds index (neither happens on well-formed trees with the
fuel used by `Tree.select`). -/
def selectAux {σ μ υ α : Type _} [LinearOrder α] (g : Game σ μ υ) (score : Nat → Nat → Nat → α)
    (t : Tree σ) : Nat → Nat → Option Nat
  | 0, _ => none
  | fuel + 1, nidx =>
    match t.nodes[nidx]? with
    | none => none
    | some p =>
      if (g.is_terminal_state p.state).isSome then some nidx
      else
        match chooseChild score t p with
        | none => some nidx
        | some best => selectAux g score t fuel best.2

/-- Entry point of selection: walk from the root (index 0) with fuel equal to
the arena size, which suffices because child indices strictly exceed parent
indices on well-formed trees. -/
def Tree.select {σ μ υ α : Type _} [LinearOrder α] (g : Game σ μ υ) (score : Nat → Nat → Nat → α)
    (t : Tree σ) : Option Nat :=
  selectAux g score t t.nodes.length 0

/-- Expansion worker (the `map`/`collect` chain of `Tree::expand`, src/lib.rs
lines 134-144): for each move in order, apply it to the captured state, build
a node with the given parent, add it, and collect the new indices. -/
def expandAux {σ μ υ : Type _} (g : Game σ μ υ) (st : σ) (idx : Nat) :
    Tree σ → List μ → Tree σ × List Nat
  | t, [] => (t, [])
  | t, m :: ms =>
    let r := t.add_node_with_parent (Node.new (g.apply_move st m) (some idx))
    let rest := expandAux g st idx r.1 ms
    (rest.1, r.2 :: rest.2)

/-- Expansion (`Tree::expand`, src/lib.rs lines 134-144): clone the state at
`idx`, then create one child per legal move.  Out-of-bounds `idx` models the
indexing panic by returning the tree unchanged with no children (unreachable
under well-formedness). -/
def Tree.expand {σ μ υ : Type _} (g : Game σ μ υ) (t : Tree σ) (idx : Nat) :
    Tree σ × List Nat :=
  match t.nodes[idx]? with
  | none => (t, [])
  | some nd => expandAux g nd.state idx t (g.all_moves nd.state)

/-- Default `GameState::random_move` (src/lib.rs lines 26-34): `none` if the
state has no moves, otherwise pick the move at a uniformly sampled index,
consuming one random value.  Returns the possibly chosen move and the
remaining random stream. -/
def random_move {σ μ υ : Type _} (g : Game σ μ υ) (s : σ) (r : List Nat) :
    Option μ × List Nat :=
  let children := g.all_moves s
  if children.isEmpty then (none, r)
  else (children[(r.headD 0) % children.length]?, r.tail)

/-- Result of a random playout: a terminal outcome descriptor together with
the remaining random stream, the `unwrap` panic on a move-less non-terminal
state, or fuel exhaustion (a playout that has not yet reached a terminal
state). -/
inductive PlayRes (υ : Type _) where
  | ok (u : υ) (r : List Nat)
  | violation
  | fuelOut
  deriving DecidableEq, Repr

/-- Random playout (`Tree::random_playout`, src/lib.rs lines 146-157),
fuelled: repeatedly test terminality and otherwise apply a random move;
`violation` models the `unwrap()` panic when `random_move` yields `None`. -/
def random_playout {σ μ υ : Type _} (g : Game σ μ υ) :
    Nat → σ → List Nat → PlayRes υ
  | 0, _, _ => .fuelOut
  | fuel + 1, s, r =>
    match g.is_terminal_state s with
    | some u => .ok u r
    | none =>
      match random_move g s r with
      | (none, _) => .violation
      | (some m, r') => random_playout g fuel (g.apply_move s m) r'

/-- The per-node statistics update performed by one backpropagation visit:
one more visit, and one more win exactly when the node's own state judges the
outcome favourable (`Tree::backpropagate` loop body, src/lib.rs lines 162-165). -/
def upd {σ μ υ : Type _} (g : Game σ μ υ) (result : υ) (nd : Node σ) : Node σ :=
  { nd with n := nd.n + 1
            w := if g.terminal_is_win nd.state result then nd.w + 1 else nd.w }

/-- Backpropagation walk (`Tree::backpropagate`, src/lib.rs lines 159-171),
fuelled: update the node at `idx` and continue at its parent, stopping at a
parentless node.  Out of fuel or an out-of-bounds index leaves the tree as is
(unreachable under well-formedness with the wrapper's fuel). -/
def bpAux {σ μ υ : Type _} (g : Game σ μ υ) :
    Nat → Tree σ → Nat → υ → Tree σ
  | 0, t, _, _ => t
  | fuel + 1, t, idx, result =>
    match t.nodes[idx]? with
    | none => t
    | some nd =>
      let t' : Tree σ := ⟨updateAt t.nodes idx (upd g result)⟩
      match nd.parent with
      | some p => bpAux g fuel t' p result
      | none => t'

/-- Backpropagation entry point: fuel `idx + 1` suffices because parent
indices strictly decrease on well-formed trees. -/
def Tree.backpropagate {σ μ υ : Type _} (g : Game σ μ υ) (t : Tree σ)
    (idx : Nat) (result : υ) : Tree σ :=
  bpAux g (idx + 1) t idx result

/-- The parent pointer of the node at an index, `none` out of range. -/
def Tree.parentOf {σ : Type _} (t : Tree σ) (j : Nat) : Option Nat :=
  (t.nodes[j]?).bind Node.parent

/-- The chain of arena indices visited by one backpropagation call: the node
itself followed by its ancestors, cut off by fuel. -/
def chainAux {σ : Type _} (t : Tree σ) : Nat → Nat → List Nat
  | 0, _ => []
  | fuel + 1, idx =>
    idx :: (match t.parentOf idx with
            | some p => chainAux t fuel p
            | none => [])

/-- Well-formedness of the arena, maintained by the worker loop: every child
index strictly exceeds its parent's index and is in bounds, parent indices
strictly decrease, and exactly the root (index 0) is parentless. -/
@[reducible] def WF {σ : Type _} (t : Tree σ) : Prop :=
  ∀ i (h : i < t.nodes.length),
    ((∀ c ∈ (t.nodes.get ⟨i, h⟩).children, i < c ∧ c < t.nodes.length) ∧
     (∀ p, (t.nodes.get ⟨i, h⟩).parent = some p → p < i) ∧
     ((t.nodes.get ⟨i, h⟩).parent = none ↔ i = 0))

/-- The per-node statistics invariant: at least one visit and no more wins
than visits (`0 ≤ wins` holds by the `Nat` embedding of `u32`). -/
@[reducible] def InvNode {σ : Type _} (nd : Node σ) : Prop :=
  1 ≤ nd.n ∧ nd.w ≤ nd.n

/-- The statistics invariant over the whole arena. -/
@[reducible] def Inv {σ : Type _} (t : Tree σ) : Prop :=
  ∀ nd ∈ t.nodes, InvNode nd

/-- One iteration of the worker loop body (src/lib.rs lines 266-281): select;
if the selected node is terminal, backpropagate its own outcome, otherwise
expand it, sample one of the new children, play out from it, and
backpropagate the playout result to that child.  `none` models a worker panic
(selection falling off a malformed arena, `gen_range` over an empty children
set, or the playout `unwrap`). -/
def workerIterate {σ μ υ α : Type _} [LinearOrder α] (g : Game σ μ υ) (score : Nat → Nat → Nat → α)
    (playFuel : Nat) (t : Tree σ) (r : List Nat) : Option (Tree σ × List Nat) :=
  match t.select g score with
  | none => none
  | some selection =>
    match t.nodes[selection]? with
    | none => none
    | some nd =>
      match g.is_terminal_state nd.state with
      | some reward => some (t.backpropagate g selection reward, r)
      | none =>
        let ex := t.expand g selection
        if ex.2.isEmpty then none
        else
          let child := ex.2.getD ((r.headD 0) % ex.2.length) 0
          let r' := r.tail
          match ex.1.nodes[child]? with
          | none => none
          | some cnd =>
            match random_playout g playFuel cnd.state r' with
            | .ok result r'' => some (ex.1.backpropagate g child result, r'')
            | _ => none

/-- Everything a finished worker thread hands back, plus the ghost field
`performed` counting how many loop-body executions actually happened (the
thread itself returns `(reported, root-child visit counts)`; the tree and the
remaining random stream are kept for stating properties). -/
structure WorkerOut (σ : Type _) where
  reported : Nat
  performed : Nat
  tree : Tree σ
  rng : List Nat
  deriving DecidableEq

/-- The worker loop (src/lib.rs lines 265-288), fuelled: run one iteration,
test the end condition on the current iteration counter, and only increment
the counter when continuing — so the loop always runs at least one iteration
and the final counter value was never incremented after the last test. -/
def runWorker {σ μ υ α : Type _} [LinearOrder α] (g : Game σ μ υ) (score : Nat → Nat → Nat → α)
    (playFuel : Nat) (cond : Nat → Nat → Bool) (nthreads : Nat) :
    Nat → Tree σ → List Nat → Nat → Nat → Option (WorkerOut σ)
  | 0, _, _, _, _ => none
  | fuel + 1, t, r, iters, perf =>
    match workerIterate g score playFuel t r with
    | none => none
    | some (t', r') =>
      if cond nthreads iters then some ⟨iters, perf + 1, t', r'⟩
      else runWorker g score playFuel cond nthreads fuel t' r' (iters + 1) (perf + 1)

/-- A whole worker thread (the closure spawned in `run_with_end_condition`,
src/lib.rs lines 259-297): build a fresh tree holding only the root and run
the loop from iteration counter 0. -/
def runWorkerFromScratch {σ μ υ α : Type _} [LinearOrder α] (g : Game σ μ υ)
    (score : Nat → Nat → Nat → α) (playFuel : Nat) (cond : Nat → Nat → Bool)
    (nthreads fuel : Nat) (s : σ) (r : List Nat) : Option (WorkerOut σ) :=
  let t0 := ((Tree.mk []).add_node_with_parent (Node.new s none)).1
  runWorker g score playFuel cond nthreads fuel t0 r 0 0

/-- The end condition installed by `MCTS::run_with_iterations` (src/lib.rs
lines 336-346): stop once the iteration counter reaches the per-worker share
`total / nthreads` (integer division). -/
def endIters (total : Nat) : Nat → Nat → Bool :=
  fun nthreads iters => decide (total / nthreads ≤ iters)

/-- The visit-count vector a worker reports: the visit counts of the root's
children in the root's children order (src/lib.rs lines 289-296). -/
def rootVisitCounts {σ : Type _} (t : Tree σ) : List Nat :=
  match t.nodes[0]? with
  | none => []
  | some root => root.children.map t.statN

/-- The pairwise combination step of `BestResultHandle::join` (src/lib.rs
lines 208-212): add iteration counts and add visit-count vectors elementwise
(`zip` truncates to the shorter vector, exactly as in the source). -/
def combineResults (a b : Nat × List Nat) : Nat × List Nat :=
  (a.1 + b.1, List.zipWith (· + ·) a.2 b.2)

/-- Rust's `Iterator::reduce`: `none` on an empty list, otherwise a left fold
of the tail over the head. -/
def reduceCombine (rs : List (Nat × List Nat)) : Option (Nat × List Nat) :=
  match rs with
  | [] => none
  | x :: xs => some (xs.foldl combineResults x)

/-- The aggregator (`BestResultHandle::join`, src/lib.rs lines 203-231):
reduce the per-worker `(iterations, visit-count vector)` pairs, take the
index of the maximum combined visit count (`max_by_key` over `enumerate`, so
the LAST maximal index wins ties), and map it back into the canonical move
set captured at orchestration start.  `none` models the `unwrap`/indexing
panics (no workers, an empty vote vector, an out-of-range best index). -/
def joinAgg {μ : Type _} (initial_move_set : List μ)
    (results : List (Nat × List Nat)) : Option (Nat × μ) :=
  match reduceCombine results with
  | none => none
  | some res =>
    match maxByLast Prod.snd (enumF 0 res.2) with
    | none => none
    | some best => (initial_move_set[best.1]?).map (fun m => (res.1, m))

/-- Sum of the iteration counts of a list of worker results (specification
side of the aggregation claim). -/
def totalIters (results : List (Nat × List Nat)) : Nat :=
  (results.map Prod.fst).sum

/-- Combined vote for child index `j`: the sum over workers of the `j`-th
entry of their visit-count vectors (specification side of the aggregation
claim). -/
def votesAt (results : List (Nat × List Nat)) (j : Nat) : Nat :=
  (results.map (fun r => r.2.getD j 0)).sum

/-- States reachable from `s` by applying legal moves (used to state the
contract that every reachable non-terminal state has at least one move). -/
inductive Reaches {σ μ υ : Type _} (g : Game σ μ υ) : σ → σ → Prop where
  | refl (s : σ) : Reaches g s s
  | step {s s'' : σ} (m : μ) (hm : m ∈ g.all_moves s)
      (h : Reaches g (g.apply_move s m) s'') : Reaches g s s''

section MaxByLastLemmas

variable {α β : Type _} [LinearOrder β]

theorem foldl_maxBy_aux (key : α → β) :
    ∀ (xs : List α) (x : α),
      key x ≤ key (xs.foldl (fun m v => if key v < key m then m else v) x) ∧
      (∀ j (hj : j < xs.length),
        key xs[j] ≤ key (xs.foldl (fun m v => if key v < key m then m else v) x)) ∧
      ((xs.foldl (fun m v => if key v < key m then m else v) x = x ∧
          ∀ j (hj : j < xs.length), key xs[j] < key x) ∨
       (∃ k, ∃ hk : k < xs.length,
          xs[k] = xs.foldl (fun m v => if key v < key m then m else v) x ∧
          ∀ j (hj : j < xs.length), k < j →
            key xs[j] < key (xs.foldl (fun m v => if key v < key m then m else v) x)))
  | [], x => by
    refine ⟨le_refl _, ?_, Or.inl ⟨rfl, ?_⟩⟩
    · intro j hj
      simp at hj
    · intro j hj
      simp at hj
  | v :: vs, x => by
    have ih := foldl_maxBy_aux key vs (if key v < key x then x else v)
    obtain ⟨ihA, ihB, ihC⟩ := ih
    simp only [List.foldl_cons]
    refine ⟨?_, ?_, ?_⟩
    · by_cases h : key v < key x
      · simpa [h] using ihA
      · have : key x ≤ key v := le_of_not_lt h
        calc key x ≤ key v := this
        _ ≤ _ := by simpa [h] using ihA
    · intro j hj
      cases j with
      | zero =>
        by_cases h : key v < key x
        · calc key (v :: vs)[0] = key v := rfl
          _ ≤ key x := le_of_lt h
          _ ≤ _ := by simpa [h] using ihA
        · simpa [h] using ihA
      | succ j' =>
        have := ihB j' (by simpa using hj)
        simpa using this
    · rcases ihC with ⟨hy, hlt⟩ | ⟨k, hk, hget, hafter⟩
      · by_cases h : key v < key x
        · left
          have hx1 : (if key v < key x then x else v) = x := if_pos h
          rw [hx1] at hy hlt
          rw [hx1, hy]
          refine ⟨rfl, ?_⟩
          intro j hj
          cases j with
          | zero => simpa using h
          | succ j' =>
            have := hlt j' (by simpa using hj)
            simpa using this
        · right
          have hx1 : (if key v < key x then x else v) = v := if_neg h
          rw [hx1] at hy hlt
          refine ⟨0, by simp, ?_, ?_⟩
          · rw [hx1, hy]; simp
          · intro j hj hlt0
            cases j with
            | zero => cases hlt0
            | succ j' =>
              have := hlt j' (by simpa using hj)
              rw [hx1, hy]
              simpa using this
      · right
        refine ⟨k + 1, by simpa using hk, by simpa using hget, ?_⟩
        intro j hj hkj
        cases j with
        | zero => cases hkj
        | succ j' =>
          have := hafter j' (by simpa using hj) (by omega)
          simpa using this

/-- Full behavioural specification of `maxByLast`: the returned element is an
element of the list, every key is bounded by its key, and every element
strictly after its (witnessing) position has a strictly smaller key — i.e.
the last maximal element is returned, exactly Rust's `Iterator::max_by`. -/
theorem maxByLast_spec (key : α → β) (l : List α) (y : α)
    (h : maxByLast key l = some y) :
    ∃ k, ∃ hk : k < l.length, l[k] = y ∧
      (∀ j (hj : j < l.length), key l[j] ≤ key y) ∧
      (∀ j (hj : j < l.length), k < j → key l[j] < key y) := by
  match l with
  | [] => cases h
  | x :: xs =>
    have hy : xs.foldl (fun m v => if key v < key m then m else v) x = y := by
      simpa [maxByLast] using h
    obtain ⟨hA, hB, hC⟩ := foldl_maxBy_aux key xs x
    rw [hy] at hA hB hC
    rcases hC with ⟨hyx, hlt⟩ | ⟨k, hk, hget, hafter⟩
    · refine ⟨0, by simp, by simpa using hyx.symm, ?_, ?_⟩
      · intro j hj
        cases j with
        | zero => simp [← hyx]
        | succ j' => exact by simpa using hB j' (by simpa using hj)
      · intro j hj h0j
        cases j with
        | zero => cases h0j
        | succ j' =>
          have := hlt j' (by simpa using hj)
          rw [hyx]
          simpa using this
    · refine ⟨k + 1, by simpa using hk, by simpa using hget, ?_, ?_⟩
      · intro j hj
        cases j with
        | zero => exact hA
        | succ j' => exact by simpa using hB j' (by simpa using hj)
      · intro j hj hkj
        cases j with
        | zero => cases hkj
        | succ j' =>
          have := hafter j' (by simpa using hj) (by omega)
          simpa using this

theorem maxByLast_mem (key : α → β) (l : List α) (y : α)
    (h : maxByLast key l = some y) : y ∈ l := by
  obtain ⟨k, hk, hget, -⟩ := maxByLast_spec key l y h
  exact hget ▸ List.getElem_mem hk

theorem maxByLast_eq_none_iff (key : α → β) (l : List α) :
    maxByLast key l = none ↔ l = [] := by
  cases l <;> simp [maxByLast]

end MaxByLastLemmas

section TreeLemmas

variable {σ μ υ : Type _}

theorem getElem?_append_left {α : Type _} (l l2 : List α) (n : Nat)
    (h : n < l.length) : (l ++ l2)[n]? = l[n]? := by
  rw [List.getElem?_append]
  simp [h]

theorem add_node_eq_of_parent (t : Tree σ) (nd : Node σ) (p : Nat)
    (hp : nd.parent = some p) :
    t.add_node_with_parent nd =
      (⟨updateAt (t.nodes ++ [nd]) p
          (fun pn => { pn with children := pn.children ++ [t.nodes.length] })⟩,
        t.nodes.length) := by
  unfold Tree.add_node_with_parent
  rw [hp]

theorem add_node_eq_of_root (t : Tree σ) (nd : Node σ) (hp : nd.parent = none) :
    t.add_node_with_parent nd = (⟨t.nodes ++ [nd]⟩, t.nodes.length) := by
  unfold Tree.add_node_with_parent
  rw [hp]

theorem add_node_spec (t : Tree σ) (nd : Node σ) (p : Nat)
    (hp : nd.parent = some p) (hplt : p < t.nodes.length) :
    (t.add_node_with_parent nd).2 = t.nodes.length ∧
    (t.add_node_with_parent nd).1.nodes.length = t.nodes.length + 1 ∧
    (t.add_node_with_parent nd).1.nodes[t.nodes.length]? = some nd ∧
    (∀ j, j ≠ p → (t.add_node_with_parent nd).1.nodes[j]? =
      (t.nodes ++ [nd])[j]?) ∧
    (t.add_node_with_parent nd).1.nodes[p]? = (t.nodes[p]?).map
      (fun pn => { pn with children := pn.children ++ [t.nodes.length] }) := by
  rw [add_node_eq_of_parent t nd p hp]
  refine ⟨rfl, ?_, ?_, ?_, ?_⟩
  · rw [length_updateAt]
    simp
  · rw [getElem?_updateAt_ne _ _ _ _ (by omega)]
    exact List.getElem?_concat_length t.nodes nd
  · intro j hj
    exact getElem?_updateAt_ne _ _ _ _ hj
  · rw [getElem?_updateAt_eq]
    rw [getElem?_append_left _ _ _ hplt]

theorem add_node_root_spec (t : Tree σ) (nd : Node σ) (hp : nd.parent = none) :
    (t.add_node_with_parent nd).2 = t.nodes.length ∧
    (t.add_node_with_parent nd).1.nodes = t.nodes ++ [nd] := by
  rw [add_node_eq_of_root t nd hp]
  exact ⟨rfl, rfl⟩

/-- Well-formedness stated through optional indexing, the form used in the
step lemmas. -/
theorem WF.spec {t : Tree σ} (h : WF t) {i : Nat} {nd : Node σ}
    (hnd : t.nodes[i]? = some nd) :
    (∀ c ∈ nd.children, i < c ∧ c < t.nodes.length) ∧
    (∀ p, nd.parent = some p → p < i) ∧
    (nd.parent = none ↔ i = 0) := by
  have hi : i < t.nodes.length := by
    by_contra hc
    rw [List.getElem?_eq_none (by omega)] at hnd
    cases hnd
  have hget : t.nodes.get ⟨i, hi⟩ = nd := by
    have := List.getElem?_eq_getElem hi
    rw [this] at hnd
    simpa using hnd
  have := h i hi
  rw [hget] at this
  exact this

theorem getElem?_lt_length {α : Type _} {l : List α} {i : Nat} {a : α}
    (h : l[i]? = some a) : i < l.length := by
  by_contra hc
  rw [List.getElem?_eq_none (by omega)] at h
  cases h

/-- Well-formedness survives adding a fresh childless node under an existing
parent. -/
theorem WF_add_node {t : Tree σ} (hwf : WF t) (nd : Node σ) (p : Nat)
    (hp : nd.parent = some p) (hplt : p < t.nodes.length)
    (hch : nd.children = []) : WF (t.add_node_with_parent nd).1 := by
  obtain ⟨-, hlen, hnew, hother, hpar⟩ := add_node_spec t nd p hp hplt
  intro i hi
  rw [hlen] at hi
  have hget : ∀ (h2 : i < (t.add_node_with_parent nd).1.nodes.length),
      (t.add_node_with_parent nd).1.nodes.get ⟨i, h2⟩ =
        ((t.add_node_with_parent nd).1.nodes[i]?).getD nd := by
    intro h2
    rw [List.getElem?_eq_getElem h2]
    simp
  rw [hget]
  by_cases hip : i = p
  · subst hip
    rw [hpar]
    rw [List.getElem?_eq_getElem hplt]
    simp only [Option.map_some', Option.getD_some]
    have hold := hwf i hplt
    refine ⟨?_, hold.2.1, hold.2.2⟩
    intro c hc
    simp only [List.mem_append, List.mem_singleton] at hc
    rcases hc with hc | hc
    · have := hold.1 c hc
      rw [hlen]
      omega
    · subst hc
      have := hwf.spec (List.getElem?_eq_getElem hplt)
      rw [hlen]
      omega
  · by_cases hilen : i = t.nodes.length
    · subst hilen
      rw [hnew]
      simp only [Option.getD_some]
      refine ⟨?_, ?_, ?_⟩
      · intro c hc
        rw [hch] at hc
        cases hc
      · intro q hq
        rw [hp] at hq
        injection hq with hq
        omega
      · rw [hp]
        constructor
        · intro hcon
          cases hcon
        · intro hcon
          omega
    · have hilt : i < t.nodes.length := by omega
      rw [hother i hip, getElem?_append_left _ _ _ hilt,
        List.getElem?_eq_getElem hilt]
      simp only [Option.getD_some]
      have hold := hwf i hilt
      refine ⟨?_, hold.2.1, hold.2.2⟩
      intro c hc
      have := hold.1 c hc
      rw [hlen]
      omega

theorem parentOf_eq {t : Tree σ} {idx : Nat} {nd : Node σ}
    (h : t.nodes[idx]? = some nd) : t.parentOf idx = nd.parent := by
  unfold Tree.parentOf
  rw [h]
  rfl

/-- Opt-indexed introduction rule for well-formedness. -/
theorem WF_opt {t : Tree σ} (h : ∀ i (nd : Node σ), t.nodes[i]? = some nd →
    ((∀ c ∈ nd.children, i < c ∧ c < t.nodes.length) ∧
     (∀ p, nd.parent = some p → p < i) ∧ (nd.parent = none ↔ i = 0))) :
    WF t := by
  intro i hi
  exact h i (t.nodes.get ⟨i, hi⟩)
    (by rw [List.getElem?_eq_getElem hi, List.get_eq_getElem])

/-- Updating one node's statistics (children and parent untouched) preserves
well-formedness. -/
theorem WF_updateAt_stats {t : Tree σ} (hwf : WF t) (idx : Nat)
    (f : Node σ → Node σ)
    (hf : ∀ nd, (f nd).children = nd.children ∧ (f nd).parent = nd.parent) :
    WF (Tree.mk (updateAt t.nodes idx f)) := by
  apply WF_opt
  intro i nd hnd
  simp only [length_updateAt]
  by_cases h : i = idx
  · subst h
    rw [getElem?_updateAt_eq] at hnd
    cases ho : t.nodes[i]? with
    | none => rw [ho] at hnd; cases hnd
    | some nd0 =>
      rw [ho] at hnd
      simp only [Option.map_some'] at hnd
      injection hnd with hnd
      subst hnd
      have hs := hwf.spec ho
      rw [(hf nd0).1, (hf nd0).2]
      exact hs
  · rw [getElem?_updateAt_ne _ _ _ _ h] at hnd
    exact hwf.spec hnd

theorem upd_fields (g : Game σ μ υ) (r : υ) (nd : Node σ) :
    (upd g r nd).children = nd.children ∧ (upd g r nd).parent = nd.parent :=
  ⟨rfl, rfl⟩

theorem parentOf_updateAt_upd (g : Game σ μ υ) (r : υ) (t : Tree σ)
    (idx j : Nat) :
    Tree.parentOf (Tree.mk (updateAt t.nodes idx (upd g r))) j = t.parentOf j := by
  unfold Tree.parentOf
  by_cases h : j = idx
  · subst h
    show (updateAt t.nodes j (upd g r))[j]?.bind Node.parent = _
    rw [getElem?_updateAt_eq]
    cases t.nodes[j]? <;> rfl
  · show (updateAt t.nodes idx (upd g r))[j]?.bind Node.parent = _
    rw [getElem?_updateAt_ne _ _ _ _ h]

theorem chainAux_updateAt_upd (g : Game σ μ υ) (r : υ) (t : Tree σ)
    (idx : Nat) :
    ∀ fuel j,
      chainAux (Tree.mk (updateAt t.nodes idx (upd g r))) fuel j = chainAux t fuel j
  | 0, _ => rfl
  | fuel + 1, j => by
    simp only [chainAux]
    rw [parentOf_updateAt_upd]
    cases t.parentOf j with
    | none => rfl
    | some p =>
      simp only
      rw [chainAux_updateAt_upd g r t idx fuel p]

/-- Every index on the ancestor chain is bounded by the start index and by
the arena size, on a well-formed tree with sufficient fuel. -/
theorem chain_le {t : Tree σ} (hwf : WF t) :
    ∀ fuel idx, idx < t.nodes.length →
      ∀ j ∈ chainAux t fuel idx, j ≤ idx ∧ j < t.nodes.length
  | 0, idx, _, j, hj => absurd hj (List.not_mem_nil j)
  | fuel + 1, idx, hidx, j, hj => by
    simp only [chainAux] at hj
    cases ho : t.parentOf idx with
    | none =>
      rw [ho] at hj
      rcases List.mem_cons.mp hj with h | h
      · exact ⟨le_of_eq h, h ▸ hidx⟩
      · cases h
    | some p =>
      rw [ho] at hj
      rcases List.mem_cons.mp hj with h | h
      · exact ⟨le_of_eq h, h ▸ hidx⟩
      · have hnd : ∃ nd, t.nodes[idx]? = some nd := by
          rw [List.getElem?_eq_getElem hidx]
          exact ⟨_, rfl⟩
        obtain ⟨nd, hnd⟩ := hnd
        have hp : p < idx := by
          have := (hwf.spec hnd).2.1 p (by rw [← parentOf_eq hnd]; exact ho)
          exact this
        have := chain_le hwf fuel p (by omega) j h
        omega

/-- The root (index 0) is always on the ancestor chain, on a well-formed
tree with sufficient fuel. -/
theorem chain_zero_mem {t : Tree σ} (hwf : WF t) :
    ∀ fuel idx, idx < t.nodes.length → idx < fuel →
      0 ∈ chainAux t fuel idx
  | 0, idx, _, hf => absurd hf (by omega)
  | fuel + 1, idx, hidx, _ => by
    have hnd : ∃ nd, t.nodes[idx]? = some nd := by
      rw [List.getElem?_eq_getElem hidx]
      exact ⟨_, rfl⟩
    obtain ⟨nd, hnd⟩ := hnd
    simp only [chainAux]
    rw [parentOf_eq hnd]
    cases ho : nd.parent with
    | none =>
      have : idx = 0 := ((hwf.spec hnd).2.2).mp ho
      simp [this]
    | some p =>
      have hp : p < idx := (hwf.spec hnd).2.1 p ho
      have := chain_zero_mem hwf fuel p (by omega) (by omega)
      exact List.mem_cons_of_mem idx this

/-- Full characterisation of the fuelled backpropagation walk: the arena
size is unchanged, every node on the ancestor chain receives exactly one
statistics update `upd`, and every node off the chain is untouched. -/
theorem bpAux_spec (g : Game σ μ υ) (r : υ) :
    ∀ fuel idx (t : Tree σ), WF t → idx < t.nodes.length → idx < fuel →
      (bpAux g fuel t idx r).nodes.length = t.nodes.length ∧
      (∀ j ∈ chainAux t fuel idx,
        (bpAux g fuel t idx r).nodes[j]? = (t.nodes[j]?).map (upd g r)) ∧
      (∀ j, j ∉ chainAux t fuel idx →
        (bpAux g fuel t idx r).nodes[j]? = t.nodes[j]?)
  | 0, idx, t, _, _, hf => absurd hf (by omega)
  | fuel + 1, idx, t, hwf, hidx, _ => by
    have hnd : ∃ nd, t.nodes[idx]? = some nd := by
      rw [List.getElem?_eq_getElem hidx]
      exact ⟨_, rfl⟩
    obtain ⟨nd, hnd⟩ := hnd
    have hbp : bpAux g (fuel + 1) t idx r =
        (match nd.parent with
         | some p => bpAux g fuel (Tree.mk (updateAt t.nodes idx (upd g r))) p r
         | none => Tree.mk (updateAt t.nodes idx (upd g r))) := by
      simp only [bpAux]
      rw [hnd]
    have hch : chainAux t (fuel + 1) idx =
        idx :: (match nd.parent with
                | some p => chainAux t fuel p
                | none => []) := by
      simp only [chainAux]
      rw [parentOf_eq hnd]
    cases hpar : nd.parent with
    | none =>
      rw [hpar] at hbp hch
      rw [hbp, hch]
      refine ⟨by simp [length_updateAt], ?_, ?_⟩
      · intro j hj
        rcases List.mem_cons.mp hj with h | h
        · subst h
          exact getElem?_updateAt_eq t.nodes j (upd g r)
        · cases h
      · intro j hj
        have : j ≠ idx := fun h => hj (h ▸ List.mem_cons_self idx [])
        exact getElem?_updateAt_ne _ _ _ _ this
    | some p =>
      rw [hpar] at hbp hch
      have hp : p < idx := (hwf.spec hnd).2.1 p hpar
      set t' : Tree σ := Tree.mk (updateAt t.nodes idx (upd g r)) with ht'
      have hwf' : WF t' := WF_updateAt_stats hwf idx (upd g r) (upd_fields g r)
      have hlen' : t'.nodes.length = t.nodes.length := by
        rw [ht']
        exact length_updateAt _ _ _
      have ih := bpAux_spec g r fuel p t' hwf' (by omega) (by omega)
      have hchain' : chainAux t' fuel p = chainAux t fuel p :=
        chainAux_updateAt_upd g r t idx fuel p
      rw [hchain'] at ih
      obtain ⟨ihlen, ihon, ihoff⟩ := ih
      have hsub : ∀ j ∈ chainAux t fuel p, j < idx := by
        intro j hj
        have := chain_le hwf fuel p (by omega) j hj
        omega
      rw [hbp, hch]
      refine ⟨by rw [ihlen, hlen'], ?_, ?_⟩
      · intro j hj
        rcases List.mem_cons.mp hj with h | h
        · subst h
          have hnotin : j ∉ chainAux t fuel p := by
            intro hc
            exact absurd (hsub j hc) (by omega)
          rw [ihoff j hnotin, ht']
          exact getElem?_updateAt_eq t.nodes j (upd g r)
        · have hjne : j ≠ idx := by
            have := hsub j h
            omega
          rw [ihon j h, ht']
          rw [getElem?_updateAt_ne _ _ _ _ hjne]
      · intro j hj
        have hjn1 : j ≠ idx := fun h => hj (h ▸ List.mem_cons_self idx _)
        have hjn2 : j ∉ chainAux t fuel p := fun h =>
          hj (List.mem_cons_of_mem idx h)
        rw [ihoff j hjn2, ht']
        exact getElem?_updateAt_ne _ _ _ _ hjn1

/-- The statistics update preserves the per-node invariant. -/
theorem InvNode_upd (g : Game σ μ υ) (r : υ) (nd : Node σ)
    (h : InvNode nd) : InvNode (upd g r nd) := by
  obtain ⟨h1, h2⟩ := h
  unfold upd
  constructor
  · simp
  · by_cases hw : g.terminal_is_win nd.state r <;> simp [hw] <;> omega

theorem Inv_updateAt {t : Tree σ} (hinv : Inv t) (idx : Nat)
    (f : Node σ → Node σ) (hf : ∀ nd, InvNode nd → InvNode (f nd)) :
    Inv (Tree.mk (updateAt t.nodes idx f)) := by
  intro nd hnd
  rcases mem_updateAt _ _ _ _ hnd with h | ⟨b, hb, hfb⟩
  · exact hinv nd h
  · exact hfb ▸ hf b (hinv b hb)

theorem Inv_bpAux (g : Game σ μ υ) (r : υ) :
    ∀ fuel (t : Tree σ) idx, Inv t → Inv (bpAux g fuel t idx r)
  | 0, t, _, hinv => hinv
  | fuel + 1, t, idx, hinv => by
    cases ho : t.nodes[idx]? with
    | none =>
      have hred : bpAux g (fuel + 1) t idx r = t := by
        simp only [bpAux]
        rw [ho]
      rw [hred]
      exact hinv
    | some nd =>
      have hred : bpAux g (fuel + 1) t idx r =
          (match nd.parent with
           | some p => bpAux g fuel (Tree.mk (updateAt t.nodes idx (upd g r))) p r
           | none => Tree.mk (updateAt t.nodes idx (upd g r))) := by
        simp only [bpAux]
        rw [ho]
      rw [hred]
      have hinv' : Inv (Tree.mk (updateAt t.nodes idx (upd g r))) :=
        Inv_updateAt hinv idx (upd g r) (InvNode_upd g r)
      cases nd.parent with
      | some p => exact Inv_bpAux g r fuel _ p hinv'
      | none => exact hinv'

/-- Full characterisation of the expansion fold: the returned indices are the
next `ms.length` fresh arena indices in move order, each new node is built by
`Node.new` from the applied move with the expanded node as parent, the
expanded node's children list is extended by exactly the new indices in
order, and every other existing node is untouched. -/
theorem expandAux_spec (g : Game σ μ υ) (st : σ) (idx : Nat) :
    ∀ (ms : List μ) (t : Tree σ), idx < t.nodes.length →
      (expandAux g st idx t ms).2 =
        (List.range ms.length).map (t.nodes.length + ·) ∧
      (expandAux g st idx t ms).1.nodes.length = t.nodes.length + ms.length ∧
      (∀ k (hk : k < ms.length),
        (expandAux g st idx t ms).1.nodes[t.nodes.length + k]? =
          some (Node.new (g.apply_move st ms[k]) (some idx))) ∧
      ((expandAux g st idx t ms).1.nodes[idx]? = (t.nodes[idx]?).map
        (fun nd => { nd with children := nd.children ++ (expandAux g st idx t ms).2 })) ∧
      (∀ j, j ≠ idx → j < t.nodes.length →
        (expandAux g st idx t ms).1.nodes[j]? = t.nodes[j]?)
  | [], t, hidx => by
    refine ⟨by simp [expandAux], by simp [expandAux], ?_, ?_, ?_⟩
    · intro k hk
      simp at hk
    · simp only [expandAux]
      cases t.nodes[idx]? with
      | none => rfl
      | some nd => simp
    · intro j _ _
      rfl
  | m :: ms, t, hidx => by
    have hnew : (Node.new (g.apply_move st m) (some idx) : Node σ).parent = some idx := rfl
    have hchn : (Node.new (g.apply_move st m) (some idx) : Node σ).children = [] := rfl
    obtain ⟨ha2, halen, hanew, haother, hapar⟩ :=
      add_node_spec t (Node.new (g.apply_move st m) (some idx)) idx hnew hidx
    set t1 : Tree σ := (t.add_node_with_parent (Node.new (g.apply_move st m) (some idx))).1
      with ht1
    have hidx1 : idx < t1.nodes.length := by omega
    obtain ⟨ih2, ihlen, ihnew, ihpar, ihother⟩ := expandAux_spec g st idx ms t1 hidx1
    have hred : expandAux g st idx t (m :: ms) =
        ((expandAux g st idx t1 ms).1,
          (t.add_node_with_parent (Node.new (g.apply_move st m) (some idx))).2
            :: (expandAux g st idx t1 ms).2) := by
      simp only [expandAux]
    rw [hred]
    have hids : (t.add_node_with_parent (Node.new (g.apply_move st m) (some idx))).2
        :: (expandAux g st idx t1 ms).2 =
        (List.range (m :: ms).length).map (t.nodes.length + ·) := by
      rw [ha2, ih2, halen]
      simp only [List.length_cons, List.range_succ_eq_map, List.map_cons,
        List.map_map, Nat.add_zero]
      congr 1
      apply List.map_congr_left
      intro x hx
      simp [Function.comp]
      omega
    refine ⟨hids, ?_, ?_, ?_, ?_⟩
    · show (expandAux g st idx t1 ms).1.nodes.length = t.nodes.length + (m :: ms).length
      rw [ihlen, halen]
      simp only [List.length_cons]
      omega
    · intro k hk
      cases k with
      | zero =>
        have hne : t.nodes.length ≠ idx := by omega
        have hlt : t.nodes.length < t1.nodes.length := by omega
        simp only [Nat.add_zero]
        rw [ihother t.nodes.length hne hlt, hanew]
        rfl
      | succ k' =>
        have hk' : k' < ms.length := by simpa using hk
        have heq : t.nodes.length + (k' + 1) = t1.nodes.length + k' := by omega
        simp only
        rw [heq]
        have := ihnew k' hk'
        rw [this]
        rfl
    · show (expandAux g st idx t1 ms).1.nodes[idx]? = _
      rw [ihpar, hapar]
      cases ho : t.nodes[idx]? with
      | none => rfl
      | some nd =>
        simp only [Option.map_some']
        rw [ha2]
        simp [List.append_assoc]
    · intro j hjne hjlt
      simp only
      rw [ihother j hjne (by omega), haother j hjne,
        getElem?_append_left _ _ _ hjlt]

/-- Expansion normal form when the expanded index is in bounds. -/
theorem expand_eq {t : Tree σ} {idx : Nat} {nd : Node σ} (g : Game σ μ υ)
    (h : t.nodes[idx]? = some nd) :
    t.expand g idx = expandAux g nd.state idx t (g.all_moves nd.state) := by
  unfold Tree.expand
  rw [h]

theorem WF_expandAux (g : Game σ μ υ) (st : σ) (idx : Nat) :
    ∀ (ms : List μ) (t : Tree σ), WF t → idx < t.nodes.length →
      WF (expandAux g st idx t ms).1
  | [], t, hwf, _ => hwf
  | m :: ms, t, hwf, hidx => by
    have hred : (expandAux g st idx t (m :: ms)).1 =
        (expandAux g st idx
          (t.add_node_with_parent (Node.new (g.apply_move st m) (some idx))).1 ms).1 := by
      simp only [expandAux]
    rw [hred]
    have hwf1 : WF (t.add_node_with_parent (Node.new (g.apply_move st m) (some idx))).1 :=
      WF_add_node hwf _ idx rfl hidx rfl
    have hlen1 := (add_node_spec t (Node.new (g.apply_move st m) (some idx)) idx rfl hidx).2.1
    exact WF_expandAux g st idx ms _ hwf1 (by omega)

theorem Inv_add_node {t : Tree σ} (hinv : Inv t) (nd : Node σ)
    (hnd : InvNode nd) : Inv (t.add_node_with_parent nd).1 := by
  have happ : Inv (Tree.mk (t.nodes ++ [nd])) := by
    intro x hx
    rcases List.mem_append.mp hx with h | h
    · exact hinv x h
    · rw [List.mem_singleton.mp h]
      exact hnd
  cases hp : nd.parent with
  | none =>
    rw [add_node_eq_of_root t nd hp]
    exact happ
  | some p =>
    rw [add_node_eq_of_parent t nd p hp]
    intro x hx
    rcases mem_updateAt _ _ _ _ hx with h | ⟨b, hb, hfb⟩
    · exact happ x h
    · have := happ b hb
      rw [hfb]
      exact this

theorem Inv_expandAux (g : Game σ μ υ) (st : σ) (idx : Nat) :
    ∀ (ms : List μ) (t : Tree σ), Inv t → Inv (expandAux g st idx t ms).1
  | [], t, hinv => hinv
  | m :: ms, t, hinv => by
    have hred : (expandAux g st idx t (m :: ms)).1 =
        (expandAux g st idx
          (t.add_node_with_parent (Node.new (g.apply_move st m) (some idx))).1 ms).1 := by
      simp only [expandAux]
    rw [hred]
    exact Inv_expandAux g st idx ms _
      (Inv_add_node hinv _ (by constructor <;> simp [Node.new]))

/-- Selection always lands, within the stated fuel, on an in-bounds node that
is terminal or childless, on a well-formed tree. -/
theorem selectAux_spec {α : Type _} [LinearOrder α] (g : Game σ μ υ) (score : Nat → Nat → Nat → α)
    (t : Tree σ) (hwf : WF t) :
    ∀ fuel nidx, nidx < t.nodes.length → t.nodes.length - nidx ≤ fuel →
      ∃ i nd, selectAux g score t fuel nidx = some i ∧ i < t.nodes.length ∧
        t.nodes[i]? = some nd ∧ nidx ≤ i ∧
        ((g.is_terminal_state nd.state).isSome ∨ nd.children = [])
  | 0, nidx, hn, hf => absurd hf (by omega)
  | fuel + 1, nidx, hn, hf => by
    have hnd : ∃ nd, t.nodes[nidx]? = some nd := by
      rw [List.getElem?_eq_getElem hn]
      exact ⟨_, rfl⟩
    obtain ⟨nd, hnd⟩ := hnd
    have hred : selectAux g score t (fuel + 1) nidx =
        (if (g.is_terminal_state nd.state).isSome then some nidx
         else match chooseChild score t nd with
              | none => some nidx
              | some best => selectAux g score t fuel best.2) := by
      simp only [selectAux]
      rw [hnd]
    by_cases hterm : (g.is_terminal_state nd.state).isSome
    · rw [hred, if_pos hterm]
      exact ⟨nidx, nd, rfl, hn, hnd, le_refl _, Or.inl hterm⟩
    · rw [hred, if_neg hterm]
      cases hcc : chooseChild score t nd with
      | none =>
        have hempty : nd.children = [] := by
          have := (maxByLast_eq_none_iff (Prod.fst : α × Nat → α)
            (nd.children.map fun c => (score (t.statW c) (t.statN c) nd.n, c))).mp hcc
          exact List.map_eq_nil_iff.mp this
        exact ⟨nidx, nd, rfl, hn, hnd, le_refl _, Or.inr hempty⟩
      | some best =>
        have hmem : best.2 ∈ nd.children := by
          have hm := maxByLast_mem (Prod.fst : α × Nat → α) _ best hcc
          obtain ⟨c, hc, hcb⟩ := List.mem_map.mp hm
          have : best.2 = c := by rw [← hcb]
          rw [this]
          exact hc
        have hcb := (hwf.spec hnd).1 best.2 hmem
        obtain ⟨i, nd', h1, h2, h3, h4, h5⟩ :=
          selectAux_spec g score t hwf fuel best.2 hcb.2 (by omega)
        exact ⟨i, nd', h1, h2, h3, by omega, h5⟩

/-- Top-level selection on a nonempty well-formed tree. -/
theorem select_spec {α : Type _} [LinearOrder α] (g : Game σ μ υ) (score : Nat → Nat → Nat → α)
    (t : Tree σ) (hwf : WF t) (hne : 0 < t.nodes.length) :
    ∃ i nd, t.select g score = some i ∧ i < t.nodes.length ∧
      t.nodes[i]? = some nd ∧
      ((g.is_terminal_state nd.state).isSome ∨ nd.children = []) := by
  obtain ⟨i, nd, h1, h2, h3, -, h5⟩ :=
    selectAux_spec g score t hwf t.nodes.length 0 hne (by omega)
  exact ⟨i, nd, h1, h2, h3, h5⟩

/-- Backpropagation entered at an in-bounds index preserves well-formedness. -/
theorem WF_bp {t : Tree σ} (g : Game σ μ υ) (r : υ) (hwf : WF t) (idx : Nat)
    (hidx : idx < t.nodes.length) : WF (t.backpropagate g idx r) := by
  obtain ⟨hlen, hon, hoff⟩ := bpAux_spec g r (idx + 1) idx t hwf hidx (by omega)
  apply WF_opt
  intro j nd' hnd'
  unfold Tree.backpropagate at *
  rw [hlen]
  by_cases hj : j ∈ chainAux t (idx + 1) idx
  · rw [hon j hj] at hnd'
    cases ho : t.nodes[j]? with
    | none => rw [ho] at hnd'; cases hnd'
    | some nd =>
      rw [ho] at hnd'
      simp only [Option.map_some'] at hnd'
      injection hnd' with hnd'
      subst hnd'
      have hs := hwf.spec ho
      rw [(upd_fields g r nd).1, (upd_fields g r nd).2]
      exact hs
  · rw [hoff j hj] at hnd'
    exact hwf.spec hnd'

/-- Backpropagation entered at an in-bounds index keeps the arena size and
adds exactly one visit to the root. -/
theorem bp_root {t : Tree σ} (g : Game σ μ υ) (r : υ) (hwf : WF t) (idx : Nat)
    (hidx : idx < t.nodes.length) :
    (t.backpropagate g idx r).nodes.length = t.nodes.length ∧
    ∀ nd0, t.nodes[0]? = some nd0 →
      (t.backpropagate g idx r).nodes[0]? = some (upd g r nd0) := by
  obtain ⟨hlen, hon, hoff⟩ := bpAux_spec g r (idx + 1) idx t hwf hidx (by omega)
  have h0 : 0 ∈ chainAux t (idx + 1) idx := chain_zero_mem hwf (idx + 1) idx hidx (by omega)
  refine ⟨hlen, ?_⟩
  intro nd0 hnd0
  unfold Tree.backpropagate
  rw [hon 0 h0, hnd0]
  rfl

/-- The fresh single-node tree a worker starts from. -/
theorem t0_spec (s : σ) :
    (((Tree.mk []).add_node_with_parent (Node.new s none)).1 : Tree σ).nodes
        = [Node.new s none] ∧
    WF (((Tree.mk []).add_node_with_parent (Node.new s none)).1 : Tree σ) := by
  have he := add_node_eq_of_root (Tree.mk []) (Node.new s none) rfl
  rw [he]
  refine ⟨rfl, ?_⟩
  intro i hi
  simp only [List.nil_append, List.length_singleton] at hi
  interval_cases i
  simp [Node.new]

/-- One successful worker iteration preserves well-formedness, never shrinks
the arena, and adds exactly one visit to the root. -/
theorem workerIterate_spec {α : Type _} [LinearOrder α] (g : Game σ μ υ) (score : Nat → Nat → Nat → α)
    (playFuel : Nat) {t t' : Tree σ} {r r' : List Nat}
    (hwf : WF t) (hne : 0 < t.nodes.length)
    (h : workerIterate g score playFuel t r = some (t', r')) :
    WF t' ∧ t.nodes.length ≤ t'.nodes.length ∧
    (∀ nd0, t.nodes[0]? = some nd0 →
      ∃ nd0', t'.nodes[0]? = some nd0' ∧ nd0'.n = nd0.n + 1) := by
  obtain ⟨i, nd, hsel, hilt, hnd, hterm_or⟩ := select_spec g score t hwf hne
  rw [workerIterate, hsel] at h
  simp only at h
  rw [hnd] at h
  simp only at h
  cases hterm : g.is_terminal_state nd.state with
  | some reward =>
    rw [hterm] at h
    simp only [Option.some_inj, Prod.mk.injEq] at h
    obtain ⟨ht', -⟩ := h
    subst ht'
    obtain ⟨hlen, hroot⟩ := bp_root g reward hwf i hilt
    refine ⟨WF_bp g reward hwf i hilt, by omega, ?_⟩
    intro nd0 hnd0
    exact ⟨upd g reward nd0, hroot nd0 hnd0, rfl⟩
  | none =>
    rw [hterm] at h
    simp only at h
    have hexp := expand_eq g hnd
    set ms := g.all_moves nd.state with hms
    obtain ⟨he2, helen, henew, hepar, heother⟩ :=
      expandAux_spec g nd.state i ms t hilt
    rw [hexp] at h
    by_cases hemp : (expandAux g nd.state i t ms).2.isEmpty
    · rw [if_pos hemp] at h
      cases h
    · rw [if_neg hemp] at h
      have hlen2 : 0 < (expandAux g nd.state i t ms).2.length := by
        cases hl : (expandAux g nd.state i t ms).2 with
        | nil => rw [hl] at hemp; simp at hemp
        | cons a as => simp [hl]
      set pos := (r.headD 0) % (expandAux g nd.state i t ms).2.length with hpos
      have hposlt : pos < (expandAux g nd.state i t ms).2.length :=
        Nat.mod_lt _ hlen2
      have hmslen : (expandAux g nd.state i t ms).2.length = ms.length := by
        rw [he2]
        simp
      have hchild : (expandAux g nd.state i t ms).2.getD pos 0 = t.nodes.length + pos := by
        have hplt : pos < ms.length := by omega
        rw [List.getD_eq_getElem?_getD, he2, List.getElem?_map,
          List.getElem?_range hplt]
        rfl
      have hplt2 : pos < ms.length := by omega
      have hcnd : (expandAux g nd.state i t ms).1.nodes[t.nodes.length + pos]? =
          some (Node.new (g.apply_move nd.state (ms.get ⟨pos, hplt2⟩)) (some i)) := by
        have := henew pos hplt2
        rw [this, List.get_eq_getElem]
      rw [hchild, hcnd] at h
      simp only at h
      cases hplay : random_playout g playFuel
          (Node.new (g.apply_move nd.state (ms.get ⟨pos, hplt2⟩)) (some i)).state r.tail with
      | ok result r2 =>
        rw [hplay] at h
        simp only at h
        simp only [Option.some_inj, Prod.mk.injEq] at h
        obtain ⟨ht', -⟩ := h
        subst ht'
        have hwfe : WF (expandAux g nd.state i t ms).1 :=
          WF_expandAux g nd.state i ms t hwf hilt
        have hclt : t.nodes.length + pos < (expandAux g nd.state i t ms).1.nodes.length := by
          omega
        obtain ⟨hblen, hbroot⟩ := bp_root g result hwfe (t.nodes.length + pos) hclt
        refine ⟨WF_bp g result hwfe _ hclt, by omega, ?_⟩
        intro nd0 hnd0
        by_cases h0 : i = 0
        · subst h0
          have h0e : (expandAux g nd.state 0 t ms).1.nodes[0]? =
              some { nd0 with
                children := nd0.children ++ (expandAux g nd.state 0 t ms).2 } := by
            rw [hepar, hnd0]
            rfl
          refine ⟨_, hbroot _ h0e, ?_⟩
          simp [upd]
        · have h0e : (expandAux g nd.state i t ms).1.nodes[0]? = some nd0 := by
            rw [heother 0 (Ne.symm h0) (by omega), hnd0]
          refine ⟨_, hbroot _ h0e, ?_⟩
          simp [upd]
      | violation => rw [hplay] at h; cases h
      | fuelOut => rw [hplay] at h; cases h

/-- When the selected node is terminal, the iteration is exactly one
backpropagation of that node's own outcome; the random stream is untouched. -/
theorem workerIterate_terminal {α : Type _} [LinearOrder α] (g : Game σ μ υ) (score : Nat → Nat → Nat → α)
    (playFuel : Nat) {t : Tree σ} {r : List Nat} {i : Nat} {nd : Node σ} {u : υ}
    (hsel : t.select g score = some i) (hnd : t.nodes[i]? = some nd)
    (hterm : g.is_terminal_state nd.state = some u) :
    workerIterate g score playFuel t r = some (t.backpropagate g i u, r) := by
  rw [workerIterate, hsel]
  simp only
  rw [hnd]
  simp only
  rw [hterm]

/-- Counting behaviour of the worker loop, for any end condition: the
reported count is the first counter value satisfying the condition, and the
number of loop-body executions is one more than the counter advanced. -/
theorem runWorker_count {α : Type _} [LinearOrder α] (g : Game σ μ υ) (score : Nat → Nat → Nat → α)
    (playFuel : Nat) (cond : Nat → Nat → Bool) (nthreads : Nat) :
    ∀ fuel (t : Tree σ) r iters perf out,
      runWorker g score playFuel cond nthreads fuel t r iters perf = some out →
      iters ≤ out.reported ∧ cond nthreads out.reported = true ∧
      (∀ j, iters ≤ j → j < out.reported → cond nthreads j = false) ∧
      out.performed = perf + (out.reported - iters) + 1
  | 0, t, r, iters, perf, out, h => by cases h
  | fuel + 1, t, r, iters, perf, out, h => by
    rw [runWorker] at h
    cases hit : workerIterate g score playFuel t r with
    | none => rw [hit] at h; cases h
    | some pr =>
      rw [hit] at h
      simp only at h
      by_cases hc : cond nthreads iters
      · rw [if_pos hc] at h
        injection h with h
        subst h
        refine ⟨le_refl _, hc, ?_, ?_⟩
        · intro j hj1 hj2
          have hj2' : j < iters := hj2
          omega
        · show perf + 1 = perf + (iters - iters) + 1
          omega
      · rw [if_neg hc] at h
        obtain ⟨ih1, ih2, ih3, ih4⟩ :=
          runWorker_count g score playFuel cond nthreads fuel pr.1 pr.2
            (iters + 1) (perf + 1) out h
        refine ⟨by omega, ih2, ?_, by omega⟩
        intro j hj1 hj2
        by_cases hji : j = iters
        · subst hji
          exact Bool.not_eq_true _ ▸ eq_false_of_ne_true hc
        · exact ih3 j (by omega) hj2

/-- Tree behaviour of the worker loop: the final tree is well-formed and its
root has gained exactly one visit per loop-body execution. -/
theorem runWorker_tree {α : Type _} [LinearOrder α] (g : Game σ μ υ) (score : Nat → Nat → Nat → α)
    (playFuel : Nat) (cond : Nat → Nat → Bool) (nthreads : Nat) :
    ∀ fuel (t : Tree σ) r iters perf out, WF t → 0 < t.nodes.length →
      runWorker g score playFuel cond nthreads fuel t r iters perf = some out →
      WF out.tree ∧
      ∀ nd0, t.nodes[0]? = some nd0 →
        ∃ nd0', out.tree.nodes[0]? = some nd0' ∧
          nd0'.n = nd0.n + (out.reported - iters) + 1
  | 0, t, r, iters, perf, out, _, _, h => by cases h
  | fuel + 1, t, r, iters, perf, out, hwf, hne, h => by
    rw [runWorker] at h
    cases hit : workerIterate g score playFuel t r with
    | none => rw [hit] at h; cases h
    | some pr =>
      rw [hit] at h
      simp only at h
      obtain ⟨hwf', hlen', hroot'⟩ :=
        workerIterate_spec g score playFuel hwf hne
          (by rw [hit])
      by_cases hc : cond nthreads iters
      · rw [if_pos hc] at h
        injection h with h
        subst h
        refine ⟨hwf', ?_⟩
        intro nd0 hnd0
        obtain ⟨nd0', h1, h2⟩ := hroot' nd0 hnd0
        refine ⟨nd0', h1, ?_⟩
        show nd0'.n = nd0.n + (iters - iters) + 1
        omega
      · rw [if_neg hc] at h
        have hcount := runWorker_count g score playFuel cond nthreads fuel pr.1 pr.2
          (iters + 1) (perf + 1) out h
        obtain ⟨ihwf, ihroot⟩ :=
          runWorker_tree g score playFuel cond nthreads fuel pr.1 pr.2
            (iters + 1) (perf + 1) out hwf' (by omega) h
        refine ⟨ihwf, ?_⟩
        intro nd0 hnd0
        obtain ⟨nd0', h1, h2⟩ := hroot' nd0 hnd0
        obtain ⟨nd0'', h3, h4⟩ := ihroot nd0' h1
        exact ⟨nd0'', h3, by omega⟩

end TreeLemmas

section AggregatorLemmas

theorem foldl_combine_fst :
    ∀ (xs : List (Nat × List Nat)) (x : Nat × List Nat),
      (xs.foldl combineResults x).1 = x.1 + (xs.map Prod.fst).sum
  | [], x => by simp
  | v :: vs, x => by
    simp only [List.foldl_cons, List.map_cons, List.sum_cons]
    rw [foldl_combine_fst vs (combineResults x v)]
    simp only [combineResults]
    omega

theorem foldl_combine_len :
    ∀ (xs : List (Nat × List Nat)) (x : Nat × List Nat) (L : Nat),
      x.2.length = L → (∀ v ∈ xs, (v.2 : List Nat).length = L) →
      (xs.foldl combineResults x).2.length = L
  | [], x, L, hx, _ => hx
  | v :: vs, x, L, hx, hvs => by
    simp only [List.foldl_cons]
    apply foldl_combine_len vs (combineResults x v) L
    · simp only [combineResults, List.length_zipWith]
      rw [hx, hvs v (List.mem_cons_self v vs)]
      omega
    · intro w hw
      exact hvs w (List.mem_cons_of_mem v hw)

theorem foldl_combine_getD :
    ∀ (xs : List (Nat × List Nat)) (x : Nat × List Nat) (L : Nat),
      x.2.length = L → (∀ v ∈ xs, (v.2 : List Nat).length = L) →
      ∀ j, j < L →
        (xs.foldl combineResults x).2.getD j 0 =
          x.2.getD j 0 + (xs.map (fun v => v.2.getD j 0)).sum
  | [], x, L, hx, _, j, hj => by simp
  | v :: vs, x, L, hx, hvs, j, hj => by
    have hvlen : v.2.length = L := hvs v (List.mem_cons_self v vs)
    have hclen : (combineResults x v).2.length = L := by
      simp only [combineResults, List.length_zipWith]
      rw [hx, hvlen]
      omega
    simp only [List.foldl_cons, List.map_cons, List.sum_cons]
    rw [foldl_combine_getD vs (combineResults x v) L hclen
      (fun w hw => hvs w (List.mem_cons_of_mem v hw)) j hj]
    have hgz : (combineResults x v).2.getD j 0 = x.2.getD j 0 + v.2.getD j 0 := by
      simp only [combineResults]
      rw [List.getD_eq_getElem?_getD, List.getD_eq_getElem?_getD,
        List.getD_eq_getElem?_getD]
      have hjx : j < x.2.length := by omega
      have hjv : j < v.2.length := by omega
      have hjz : j < (List.zipWith (· + ·) x.2 v.2).length := by
        simp only [List.length_zipWith]
        omega
      rw [List.getElem?_eq_getElem hjx, List.getElem?_eq_getElem hjv,
        List.getElem?_eq_getElem hjz]
      simp only [Option.getD_some]
      rw [List.getElem_zipWith]
    rw [hgz]
    omega

theorem votesAt_cons (x : Nat × List Nat) (xs : List (Nat × List Nat)) (j : Nat) :
    votesAt (x :: xs) j = x.2.getD j 0 + votesAt xs j := by
  simp [votesAt]

theorem totalIters_cons (x : Nat × List Nat) (xs : List (Nat × List Nat)) :
    totalIters (x :: xs) = x.1 + totalIters xs := by
  simp [totalIters]

end AggregatorLemmas

section PlayoutLemmas

variable {σ μ υ : Type _}

/-- Under the contract that every reachable non-terminal state has a move,
random playout never hits the `unwrap` failure branch, whatever the fuel or
random stream. -/
theorem playout_safe (g : Game σ μ υ) :
    ∀ fuel (s : σ) (r : List Nat),
      (∀ s', Reaches g s s' → g.is_terminal_state s' = none →
        g.all_moves s' ≠ []) →
      random_playout g fuel s r ≠ PlayRes.violation
  | 0, s, r, hp => by simp [random_playout]
  | fuel + 1, s, r, hp => by
    cases hterm : g.is_terminal_state s with
    | some u =>
      have hred : random_playout g (fuel + 1) s r = .ok u r := by
        simp only [random_playout]
        rw [hterm]
      simp [hred]
    | none =>
      have hmv : g.all_moves s ≠ [] := hp s (Reaches.refl s) hterm
      have hlen : 0 < (g.all_moves s).length := List.length_pos.mpr hmv
      have hidx : (r.headD 0) % (g.all_moves s).length < (g.all_moves s).length :=
        Nat.mod_lt _ hlen
      have hrm : random_move g s r =
          ((g.all_moves s)[(r.headD 0) % (g.all_moves s).length]?, r.tail) := by
        unfold random_move
        rw [if_neg (by simpa [List.isEmpty_iff] using hmv)]
      have hsome : (g.all_moves s)[(r.headD 0) % (g.all_moves s).length]? =
          some ((g.all_moves s)[(r.headD 0) % (g.all_moves s).length]) :=
        List.getElem?_eq_getElem hidx
      have hred : random_playout g (fuel + 1) s r =
          random_playout g fuel
            (g.apply_move s ((g.all_moves s)[(r.headD 0) % (g.all_moves s).length]))
            r.tail := by
        simp only [random_playout]
        rw [hterm, hrm, hsome]
      rw [hred]
      apply playout_safe g fuel
      intro s'' h' ht
      exact hp s''
        (Reaches.step _ (List.getElem_mem hidx) h') ht

/-- With a strictly decreasing measure on reachable states, random playout
returns an outcome descriptor whenever the fuel exceeds the start state's
measure. -/
theorem playout_total (g : Game σ μ υ) (meas : σ → Nat) :
    ∀ fuel (s : σ) (r : List Nat),
      (∀ s', Reaches g s s' → g.is_terminal_state s' = none →
        g.all_moves s' ≠ []) →
      (∀ s' m, Reaches g s s' → m ∈ g.all_moves s' →
        meas (g.apply_move s' m) < meas s') →
      meas s < fuel →
      ∃ u r', random_playout g fuel s r = .ok u r'
  | 0, s, r, _, _, hf => absurd hf (by omega)
  | fuel + 1, s, r, hp, hmeas, hf => by
    cases hterm : g.is_terminal_state s with
    | some u =>
      refine ⟨u, r, ?_⟩
      simp only [random_playout]
      rw [hterm]
    | none =>
      have hmv : g.all_moves s ≠ [] := hp s (Reaches.refl s) hterm
      have hlen : 0 < (g.all_moves s).length := List.length_pos.mpr hmv
      have hidx : (r.headD 0) % (g.all_moves s).length < (g.all_moves s).length :=
        Nat.mod_lt _ hlen
      have hrm : random_move g s r =
          ((g.all_moves s)[(r.headD 0) % (g.all_moves s).length]?, r.tail) := by
        unfold random_move
        rw [if_neg (by simpa [List.isEmpty_iff] using hmv)]
      have hsome : (g.all_moves s)[(r.headD 0) % (g.all_moves s).length]? =
          some ((g.all_moves s)[(r.headD 0) % (g.all_moves s).length]) :=
        List.getElem?_eq_getElem hidx
      have hred : random_playout g (fuel + 1) s r =
          random_playout g fuel
            (g.apply_move s ((g.all_moves s)[(r.headD 0) % (g.all_moves s).length]))
            r.tail := by
        simp only [random_playout]
        rw [hterm, hrm, hsome]
      rw [hred]
      have hmem := List.getElem_mem hidx
      apply playout_total g meas fuel _ r.tail
      · intro s'' h' ht
        exact hp s'' (Reaches.step _ hmem h') ht
      · intro s'' m h' hm
        exact hmeas s'' m (Reaches.step _ hmem h') hm
      · have := hmeas s _ (Reaches.refl s) hmem
        omega

end PlayoutLemmas

section ConcreteObjects

/-- A one-state game that is terminal immediately (used to exercise the
terminal branch of the worker loop). -/
def unitTerm : Game Unit Unit Unit :=
  ⟨fun _ => [], fun s _ => s, fun _ => some (), fun _ _ => true⟩

/-- A one-state game that is never terminal and has no moves: the contract
violation that must abort simulation. -/
def stuckG : Game Unit Unit Unit :=
  ⟨fun _ => [], fun s _ => s, fun _ => none, fun _ _ => false⟩

/-- A one-state game that is never terminal and always offers two moves
(used to drive selection through a tie). -/
def twoMoves : Game Unit Bool Unit :=
  ⟨fun _ => [false, true], fun s _ => s, fun _ => none, fun _ _ => false⟩

/-- Stand-in for the `f64` natural logarithm in the score counterexample:
only its value at parent visit count 1 is ever used, and `ln 1 = 0` exactly
in `f64` as well. -/
def lnStub : Nat → ℚ := fun _ => 0

/-- Stand-in for the `f64` square root in the score counterexample: only its
value at 0 is ever used, and `sqrt 0 = 0` exactly in `f64` as well. -/
def sqrtStub : ℚ → ℚ := fun _ => 0

/-- A root with two just-expanded children carrying identical statistics
`(visits 1, wins 0)` — the tie situation after one expansion. -/
def tTie : Tree Unit :=
  ⟨[⟨1, 0, (), [1, 2], none⟩, Node.new () (some 0), Node.new () (some 0)]⟩

/-- A three-node parent chain (root ← 1 ← 2) for exercising backpropagation. -/
def tChain : Tree Unit :=
  ⟨[⟨3, 1, (), [1], none⟩, ⟨2, 0, (), [2], some 0⟩, ⟨1, 0, (), [], some 1⟩]⟩

/-- A concrete score function for counterexamples and witnesses.  Selection
is parametric in the score; at the tie situations exercised below the actual
`f64` UCT also produces equal scores (both children carry `(w, n) = (0, 1)`
under a parent with one visit, giving `0/1 + c * sqrt(ln 1 / 1) = 0` exactly
in `f64` for every exploration factor `c`), so any function of the statistics
reproduces the comparison the code performs there. -/
def score0 : Nat → Nat → Nat → Nat := fun _ _ _ => 0

end ConcreteObjects

section Claims

/-- C1, corrected.  Aggregation (`BestResultHandle::join`): the total is the
sum of the workers' iteration counts and the chosen move is the one at the
index of the maximum elementwise-summed visit count — but on ties the LAST
such index wins (Rust's `max_by_key` keeps the later maximum), not the first
as the claim states.  Stated for any nonempty list of worker reports whose
visit vectors all have the canonical length. -/
theorem C1_join_aggregation {μ : Type _} (moves : List μ)
    (results : List (Nat × List Nat))
    (hne : results ≠ [])
    (hlen : ∀ v ∈ results, v.2.length = moves.length)
    (hm : 0 < moves.length) :
    ∃ k, ∃ hk : k < moves.length,
      joinAgg moves results = some (totalIters results, moves[k]) ∧
      (∀ j, j < moves.length → votesAt results j ≤ votesAt results k) ∧
      (∀ j, j < moves.length → k < j → votesAt results j < votesAt results k) := by
  match results, hne with
  | x :: xs, _ =>
    have hxlen : x.2.length = moves.length := hlen x (List.mem_cons_self x xs)
    have hxslen : ∀ v ∈ xs, (v.2 : List Nat).length = moves.length :=
      fun v hv => hlen v (List.mem_cons_of_mem x hv)
    set res := xs.foldl combineResults x with hres
    have hfst : res.1 = totalIters (x :: xs) := by
      rw [hres, foldl_combine_fst, totalIters]
      simp
    have hvlen : res.2.length = moves.length :=
      foldl_combine_len xs x moves.length hxlen hxslen
    have hget : ∀ j, j < moves.length → res.2.getD j 0 = votesAt (x :: xs) j := by
      intro j hj
      rw [hres, foldl_combine_getD xs x moves.length hxlen hxslen j hj,
        votesAt_cons]
      rfl
    have henlen : (enumF 0 res.2).length = moves.length := by
      rw [length_enumF, hvlen]
    obtain ⟨y, hy⟩ : ∃ y, maxByLast Prod.snd (enumF 0 res.2) = some y := by
      cases hmb : maxByLast Prod.snd (enumF 0 res.2) with
      | none =>
        have h0 := (maxByLast_eq_none_iff _ _).mp hmb
        have : (enumF 0 res.2).length = 0 := by rw [h0]; rfl
        omega
      | some y => exact ⟨y, rfl⟩
    obtain ⟨k, hk, hgetk, hle, hlt⟩ := maxByLast_spec Prod.snd (enumF 0 res.2) y hy
    have hkL : k < moves.length := by omega
    have hkv : k < res.2.length := by omega
    rw [getElem_enumF 0 res.2 k hkv hk] at hgetk
    have hjoin : joinAgg moves (x :: xs) = (moves[k]?).map (fun m => (res.1, m)) := by
      simp only [joinAgg, reduceCombine]
      rw [← hres, hy, ← hgetk]
      simp
    refine ⟨k, hkL, ?_, ?_, ?_⟩
    · rw [hjoin, List.getElem?_eq_getElem hkL]
      simp only [Option.map_some']
      rw [hfst]
    · intro j hj
      have hjv : j < res.2.length := by omega
      have hje : j < (enumF 0 res.2).length := by omega
      have h1 := hle j hje
      rw [getElem_enumF 0 res.2 j hjv hje, ← hgetk] at h1
      simp only at h1
      rw [← hget j hj, ← hget k hkL,
        List.getD_eq_getElem?_getD, List.getD_eq_getElem?_getD,
        List.getElem?_eq_getElem hjv, List.getElem?_eq_getElem hkv]
      simpa using h1
    · intro j hj hkj
      have hjv : j < res.2.length := by omega
      have hje : j < (enumF 0 res.2).length := by omega
      have h1 := hlt j hje hkj
      rw [getElem_enumF 0 res.2 j hjv hje, ← hgetk] at h1
      simp only at h1
      rw [← hget j hj, ← hget k hkL,
        List.getD_eq_getElem?_getD, List.getD_eq_getElem?_getD,
        List.getElem?_eq_getElem hjv, List.getElem?_eq_getElem hkv]
      simpa using h1

/-- C1 counterexample to the claim as stated: two workers whose summed vote
vector is the tie `[4, 4]` over the canonical move set `[0, 1]`.  The claim's
first-index tie-break predicts move `0`; the code returns move `1` (the last
maximal index wins in `max_by_key`). -/
theorem C1_counterexample :
    joinAgg [0, 1] [(2, [2, 2]), (3, [2, 2])] = some (5, 1) ∧
    joinAgg [0, 1] [(2, [2, 2]), (3, [2, 2])] ≠ some (5, 0) := by decide

/-- C1 witness: the spec's own aggregation example, two workers reporting
`(10, [3, 7])` and `(10, [8, 2])`: total `20` and the move at index `0`
(combined votes `[11, 9]`, unique maximum). -/
theorem C1_witness :
    joinAgg [0, 1] [(10, [3, 7]), (10, [8, 2])] = some (20, 0) ∧
    (∃ k, ∃ hk : k < ([0, 1] : List Nat).length,
      joinAgg [0, 1] [(10, [3, 7]), (10, [8, 2])] =
        some (totalIters [(10, [3, 7]), (10, [8, 2])], [0, 1][k]) ∧
      (∀ j, j < ([0, 1] : List Nat).length →
        votesAt [(10, [3, 7]), (10, [8, 2])] j ≤
          votesAt [(10, [3, 7]), (10, [8, 2])] k) ∧
      (∀ j, j < ([0, 1] : List Nat).length → k < j →
        votesAt [(10, [3, 7]), (10, [8, 2])] j <
          votesAt [(10, [3, 7]), (10, [8, 2])] k)) :=
  ⟨by decide,
    C1_join_aggregation [0, 1] [(10, [3, 7]), (10, [8, 2])]
      (by decide) (by decide) (by decide)⟩

/-- C2, corrected.  One selection step picks a child of the current node that
attains the maximum score (scores live in a linear order, so every comparison
is decidable, mirroring `f64::total_cmp`), and on ties the LAST child in
iteration order wins (Rust's `max_by` keeps the later maximum), not the first
as the claim states.  The second conjunct ties the step to the selection
walk: at a non-terminal node the walk continues exactly at the chosen child.
The numeric `f64` UCT formula itself is abstracted into the score parameter
(floating point is not exactly embeddable); `uctQ` records its shape. -/
theorem C2_selection_step {σ μ υ α : Type _} [LinearOrder α] (g : Game σ μ υ)
    (score : Nat → Nat → Nat → α) :
    (∀ (t : Tree σ) (p : Node σ) (best : α × Nat),
      chooseChild score t p = some best →
      best.2 ∈ p.children ∧
      best.1 = score (t.statW best.2) (t.statN best.2) p.n ∧
      (∀ c ∈ p.children, score (t.statW c) (t.statN c) p.n ≤ best.1) ∧
      (∃ k, ∃ hk : k < p.children.length, p.children[k] = best.2 ∧
        ∀ j (hj : j < p.children.length), k < j →
          score (t.statW p.children[j]) (t.statN p.children[j]) p.n < best.1)) ∧
    (∀ (t : Tree σ) (fuel nidx : Nat) (nd : Node σ),
      t.nodes[nidx]? = some nd → g.is_terminal_state nd.state = none →
      selectAux g score t (fuel + 1) nidx =
        (match chooseChild score t nd with
         | none => some nidx
         | some best => selectAux g score t fuel best.2)) := by
  constructor
  · intro t p best h
    unfold chooseChild at h
    obtain ⟨k, hk, hgetk, hle, hlt⟩ := maxByLast_spec Prod.fst _ best h
    have hklen : k < p.children.length := by simpa using hk
    rw [List.getElem_map] at hgetk
    have hb2 : best.2 = p.children[k] := by rw [← hgetk]
    have hb1 : best.1 = score (t.statW p.children[k]) (t.statN p.children[k]) p.n := by
      rw [← hgetk]
    refine ⟨hb2 ▸ List.getElem_mem hklen, by rw [hb1, hb2], ?_, ?_⟩
    · intro c hc
      obtain ⟨j, hj, hcj⟩ := List.mem_iff_getElem.mp hc
      have h1 := hle j (by simpa using hj)
      rw [List.getElem_map] at h1
      rw [← hcj]
      simpa using h1
    · refine ⟨k, hklen, hb2.symm, ?_⟩
      intro j hj hkj
      have h1 := hlt j (by simpa using hj) hkj
      rw [List.getElem_map] at h1
      simpa using h1
  · intro t fuel nidx nd hnd hterm
    simp only [selectAux]
    rw [hnd]
    simp only
    rw [hterm]
    rfl

/-- C2 counterexample to the claim as stated: a root whose two children carry
identical statistics.  Any score function ties on them (the real `f64` UCT
gives exactly `0.0` for both, for every exploration factor, since `ln 1 = 0`),
and the code descends into the LAST tied child (arena index 2), while the
claim's first-wins tie-break predicts the first (arena index 1). -/
theorem C2_counterexample :
    score0 (tTie.statW 1) (tTie.statN 1) 1 = score0 (tTie.statW 2) (tTie.statN 2) 1 ∧
    Tree.select twoMoves score0 tTie = some 2 ∧
    Tree.select twoMoves score0 tTie ≠ some 1 := by decide

/-- C2 witness: the selection-step characterisation applied to the concrete
tied root: the chosen pair is `(0, 2)`, its child is a child of the root, and
its score bounds all children's scores. -/
theorem C2_witness :
    chooseChild score0 tTie ⟨1, 0, (), [1, 2], none⟩ = some (0, 2) ∧
    ((0 : Nat), (2 : Nat)).2 ∈ [1, 2] ∧
    (∀ c ∈ [1, 2], score0 (tTie.statW c) (tTie.statN c) 1 ≤
      ((0 : Nat), (2 : Nat)).1) :=
  ⟨by decide,
    ((C2_selection_step twoMoves score0).1 tTie ⟨1, 0, (), [1, 2], none⟩
      (0, 2) (by decide)).1,
    ((C2_selection_step twoMoves score0).1 tTie ⟨1, 0, (), [1, 2], none⟩
      (0, 2) (by decide)).2.2.1⟩

/-- C3, corrected.  With the `run_with_iterations` end condition, a worker
that completes REPORTS an iteration count of `total / nthreads` but PERFORMS
`total / nthreads + 1` select/expand/simulate/backpropagate loop iterations —
one more than the claim states, because the loop body runs before the counter
is tested and the counter is not incremented after the final test. -/
theorem C3_iteration_budget {σ μ υ α : Type _} [LinearOrder α] (g : Game σ μ υ)
    (score : Nat → Nat → Nat → α) (playFuel total nthreads fuel : Nat) (s : σ)
    (r : List Nat) (out : WorkerOut σ)
    (_hn : 1 ≤ nthreads)
    (h : runWorkerFromScratch g score playFuel (endIters total) nthreads fuel s r
          = some out) :
    out.reported = total / nthreads ∧ out.performed = total / nthreads + 1 := by
  unfold runWorkerFromScratch at h
  obtain ⟨h1, h2, h3, h4⟩ :=
    runWorker_count g score playFuel (endIters total) nthreads fuel _ r 0 0 out h
  have hK : total / nthreads ≤ out.reported := by
    simpa [endIters] using h2
  have hK2 : out.reported ≤ total / nthreads := by
    by_contra hc
    push_neg at hc
    have := h3 (total / nthreads) (Nat.zero_le _) hc
    simp [endIters] at this
  have hrep : out.reported = total / nthreads := le_antisymm hK2 hK
  refine ⟨hrep, ?_⟩
  rw [h4, hrep]
  simp

/-- C3 counterexample to the claim as stated: a single worker with a total
budget of 0 iterations performs one full iteration (the final tree's root
shows 2 visits: the creation baseline plus one backpropagation), not the
`floor(0/1) = 0` iterations the claim demands. -/
theorem C3_counterexample :
    runWorkerFromScratch unitTerm score0 0 (endIters 0) 1 3 () [] =
      some ⟨0, 1, ⟨[⟨2, 1, (), [], none⟩]⟩, []⟩ ∧
    (1 : Nat) ≠ 0 / 1 := by decide

/-- C3 witness: a concrete completed run with total 3 and worker count 2
(per-worker share 1): the worker reports 1 and performed 2 iterations. -/
theorem C3_witness :
    (⟨1, 2, ⟨[⟨3, 2, (), [], none⟩]⟩, []⟩ : WorkerOut Unit).reported = 3 / 2 ∧
    (⟨1, 2, ⟨[⟨3, 2, (), [], none⟩]⟩, []⟩ : WorkerOut Unit).performed = 3 / 2 + 1 :=
  C3_iteration_budget unitTerm score0 0 3 2 4 () []
    ⟨1, 2, ⟨[⟨3, 2, (), [], none⟩]⟩, []⟩ (by decide) (by decide)

/-- C4, confirmed.  Backpropagation from an in-bounds node of a well-formed
tree updates exactly the nodes on the ancestor chain from the node up to and
including the root (index 0, which is always on the chain): each gains
exactly one visit, gains one win exactly when its own state judges the
outcome favourable, and keeps its state, children and parent; every node off
the chain is untouched and the arena size is unchanged. -/
theorem C4_backpropagation {σ μ υ : Type _} (g : Game σ μ υ) (t : Tree σ)
    (idx : Nat) (r : υ) (hwf : WF t) (hidx : idx < t.nodes.length) :
    (t.backpropagate g idx r).nodes.length = t.nodes.length ∧
    0 ∈ chainAux t (idx + 1) idx ∧
    idx ∈ chainAux t (idx + 1) idx ∧
    (∀ j ∈ chainAux t (idx + 1) idx, j ≤ idx ∧ j < t.nodes.length) ∧
    (∀ j ∈ chainAux t (idx + 1) idx, ∃ nd, t.nodes[j]? = some nd ∧
      (t.backpropagate g idx r).nodes[j]? = some (upd g r nd)) ∧
    (∀ nd : Node σ, (upd g r nd).n = nd.n + 1 ∧
      ((upd g r nd).w = if g.terminal_is_win nd.state r then nd.w + 1 else nd.w) ∧
      (upd g r nd).children = nd.children ∧ (upd g r nd).parent = nd.parent ∧
      (upd g r nd).state = nd.state) ∧
    (∀ j, j ∉ chainAux t (idx + 1) idx →
      (t.backpropagate g idx r).nodes[j]? = t.nodes[j]?) := by
  obtain ⟨hlen, hon, hoff⟩ := bpAux_spec g r (idx + 1) idx t hwf hidx (by omega)
  have hidxmem : idx ∈ chainAux t (idx + 1) idx := by
    simp only [chainAux]
    exact List.mem_cons_self _ _
  refine ⟨hlen, chain_zero_mem hwf (idx + 1) idx hidx (by omega), hidxmem,
    fun j hj => chain_le hwf (idx + 1) idx hidx j hj, ?_, ?_, hoff⟩
  · intro j hj
    have hjlt : j < t.nodes.length := (chain_le hwf (idx + 1) idx hidx j hj).2
    refine ⟨t.nodes.get ⟨j, hjlt⟩, ?_, ?_⟩
    · rw [List.getElem?_eq_getElem hjlt, List.get_eq_getElem]
    · have := hon j hj
      unfold Tree.backpropagate
      rw [this, List.getElem?_eq_getElem hjlt]
      rw [List.get_eq_getElem]
      rfl
  · intro nd
    exact ⟨rfl, rfl, rfl, rfl, rfl⟩

/-- C4 witness: backpropagation from the leaf of the three-node chain tree
keeps the arena size and reaches the root. -/
theorem C4_witness :
    WF tChain ∧ (2 : Nat) < tChain.nodes.length ∧
    (tChain.backpropagate twoMoves 2 ()).nodes.length = tChain.nodes.length ∧
    0 ∈ chainAux tChain 3 2 :=
  ⟨by decide, by decide,
    (C4_backpropagation twoMoves tChain 2 () (by decide) (by decide)).1,
    (C4_backpropagation twoMoves tChain 2 () (by decide) (by decide)).2.1⟩

/-- C5, confirmed.  Expanding an unexpanded non-terminal node creates exactly
one node per legal move of its state, in `all_moves` order at the next fresh
arena indices (which are the returned identifiers, in the same order); each
new node is `Node.new` of the applied move's state with the expanded node as
parent; the expanded node's children list becomes exactly the returned
identifiers; and every other pre-existing node is untouched. -/
theorem C5_expansion {σ μ υ : Type _} (g : Game σ μ υ) (t : Tree σ) (idx : Nat)
    (nd : Node σ) (hnd : t.nodes[idx]? = some nd)
    (_hterm : g.is_terminal_state nd.state = none)
    (hch : nd.children = []) :
    (t.expand g idx).2 =
      (List.range (g.all_moves nd.state).length).map (t.nodes.length + ·) ∧
    (t.expand g idx).1.nodes.length =
      t.nodes.length + (g.all_moves nd.state).length ∧
    (∀ k (hk : k < (g.all_moves nd.state).length),
      (t.expand g idx).1.nodes[t.nodes.length + k]? =
        some (Node.new (g.apply_move nd.state (g.all_moves nd.state)[k]) (some idx))) ∧
    (t.expand g idx).1.nodes[idx]? = some { nd with children := (t.expand g idx).2 } ∧
    (∀ j, j ≠ idx → j < t.nodes.length →
      (t.expand g idx).1.nodes[j]? = t.nodes[j]?) := by
  have hidx : idx < t.nodes.length := getElem?_lt_length hnd
  rw [expand_eq g hnd]
  obtain ⟨he2, helen, henew, hepar, heother⟩ :=
    expandAux_spec g nd.state idx (g.all_moves nd.state) t hidx
  refine ⟨he2, helen, henew, ?_, heother⟩
  rw [hepar, hnd]
  simp only [Option.map_some']
  rw [hch]
  rfl

/-- C5 witness: expanding the fresh root of a two-move game returns the new
identifiers `[1, 2]` in move order and grows the arena to three nodes. -/
theorem C5_witness :
    (Tree.expand twoMoves ⟨[Node.new () none]⟩ 0).2 =
      (List.range (twoMoves.all_moves (Node.new () none).state).length).map
        ((⟨[Node.new () none]⟩ : Tree Unit).nodes.length + ·) ∧
    (Tree.expand twoMoves ⟨[Node.new () none]⟩ 0).2 = [1, 2] :=
  ⟨(C5_expansion twoMoves ⟨[Node.new () none]⟩ 0 (Node.new () none)
      (by decide) (by decide) (by decide)).1,
    by decide⟩

/-- C6, confirmed.  When selection lands on a terminal node, the iteration
backpropagates that node's own outcome directly with no expansion: the arena
does not grow (no node is created), the node's children list is untouched
(still empty), and its visit count rises by exactly 1 above whatever it was
(hence strictly above the creation baseline of 1). -/
theorem C6_terminal_iteration {σ μ υ α : Type _} [LinearOrder α]
    (g : Game σ μ υ) (score : Nat → Nat → Nat → α) (playFuel : Nat)
    (t : Tree σ) (r : List Nat) (i : Nat) (nd : Node σ) (u : υ)
    (hwf : WF t)
    (hsel : t.select g score = some i)
    (hnd : t.nodes[i]? = some nd)
    (hterm : g.is_terminal_state nd.state = some u)
    (hch : nd.children = []) :
    workerIterate g score playFuel t r = some (t.backpropagate g i u, r) ∧
    (t.backpropagate g i u).nodes.length = t.nodes.length ∧
    (t.backpropagate g i u).nodes[i]? = some (upd g u nd) ∧
    (upd g u nd).children = [] ∧
    (upd g u nd).n = nd.n + 1 := by
  have hidx : i < t.nodes.length := getElem?_lt_length hnd
  obtain ⟨hlen, hon, hoff⟩ := bpAux_spec g u (i + 1) i t hwf hidx (by omega)
  have hidxmem : i ∈ chainAux t (i + 1) i := by
    simp only [chainAux]
    exact List.mem_cons_self _ _
  refine ⟨workerIterate_terminal g score playFuel hsel hnd hterm, hlen, ?_, ?_, rfl⟩
  · unfold Tree.backpropagate
    rw [hon i hidxmem, hnd]
    rfl
  · show nd.children = []
    exact hch

/-- C6 witness: a worker iteration on the fresh root of an immediately
terminal game backpropagates in place: same arena, children still empty. -/
theorem C6_witness :
    workerIterate unitTerm score0 0 ⟨[Node.new () none]⟩ [] =
      some ((⟨[Node.new () none]⟩ : Tree Unit).backpropagate unitTerm 0 (), []) ∧
    ((⟨[Node.new () none]⟩ : Tree Unit).backpropagate unitTerm 0 ()).nodes.length =
      (⟨[Node.new () none]⟩ : Tree Unit).nodes.length ∧
    (upd unitTerm () (Node.new () none)).children = [] :=
  ⟨(C6_terminal_iteration unitTerm score0 0 ⟨[Node.new () none]⟩ [] 0
      (Node.new () none) () (by decide) (by decide) (by decide) (by decide)
      (by decide)).1,
   (C6_terminal_iteration unitTerm score0 0 ⟨[Node.new () none]⟩ [] 0
      (Node.new () none) () (by decide) (by decide) (by decide) (by decide)
      (by decide)).2.1,
   (C6_terminal_iteration unitTerm score0 0 ⟨[Node.new () none]⟩ [] 0
      (Node.new () none) () (by decide) (by decide) (by decide) (by decide)
      (by decide)).2.2.2.1⟩

/-- C7, confirmed.  The statistics invariant `visits ≥ 1 ∧ wins ≤ visits`
(and `0 ≤ wins`, trivially in `Nat`) holds at node creation and is preserved
by every tree operation: `add_node_with_parent` (given an invariant-abiding
new node), `expand`, and `backpropagate`. -/
theorem C7_stats_invariant {σ μ υ : Type _} (g : Game σ μ υ) :
    (∀ (s : σ) (p : Option Nat), InvNode (Node.new s p)) ∧
    (∀ (t : Tree σ) (nd : Node σ), Inv t → InvNode nd →
      Inv (t.add_node_with_parent nd).1) ∧
    (∀ (t : Tree σ) (idx : Nat), Inv t → Inv (t.expand g idx).1) ∧
    (∀ (t : Tree σ) (idx : Nat) (r : υ), Inv t → Inv (t.backpropagate g idx r)) := by
  refine ⟨?_, ?_, ?_, ?_⟩
  · intro s p
    exact ⟨by simp [Node.new], by simp [Node.new]⟩
  · intro t nd hinv hnd
    exact Inv_add_node hinv nd hnd
  · intro t idx hinv
    cases ho : t.nodes[idx]? with
    | none =>
      have hred : t.expand g idx = (t, []) := by
        unfold Tree.expand
        rw [ho]
      rw [hred]
      exact hinv
    | some nd =>
      rw [expand_eq g ho]
      exact Inv_expandAux g nd.state idx (g.all_moves nd.state) t hinv
  · intro t idx r hinv
    exact Inv_bpAux g r (idx + 1) t idx hinv

/-- C7 witness: the invariant holds on the chain tree and survives a
backpropagation from its leaf. -/
theorem C7_witness :
    Inv tChain ∧ Inv (tChain.backpropagate twoMoves 2 ()) :=
  ⟨by decide, (C7_stats_invariant twoMoves).2.2.2 tChain 2 () (by decide)⟩

/-- C8, confirmed.  Simulation contract: reaching a non-terminal state with
no legal moves takes the fatal failure branch (the `unwrap` panic) at once;
under the precondition that every reachable non-terminal state has at least
one legal move the failure branch is unreachable for every fuel and random
stream; and when additionally a strictly decreasing measure witnesses
termination, the playout returns an outcome descriptor. -/
theorem C8_playout_contract {σ μ υ : Type _} (g : Game σ μ υ) :
    (∀ (s : σ) (fuel : Nat) (r : List Nat),
      g.is_terminal_state s = none → g.all_moves s = [] →
      random_playout g (fuel + 1) s r = PlayRes.violation) ∧
    (∀ (s : σ),
      (∀ s', Reaches g s s' → g.is_terminal_state s' = none →
        g.all_moves s' ≠ []) →
      ∀ fuel (r : List Nat), random_playout g fuel s r ≠ PlayRes.violation) ∧
    (∀ (meas : σ → Nat) (s : σ),
      (∀ s', Reaches g s s' → g.is_terminal_state s' = none →
        g.all_moves s' ≠ []) →
      (∀ s' m, Reaches g s s' → m ∈ g.all_moves s' →
        meas (g.apply_move s' m) < meas s') →
      ∀ (r : List Nat) fuel, meas s < fuel →
        ∃ u r', random_playout g fuel s r = .ok u r') := by
  refine ⟨?_, ?_, ?_⟩
  · intro s fuel r hterm hmv
    have hrm : random_move g s r = (none, r) := by
      unfold random_move
      rw [if_pos (by simp [hmv])]
    simp only [random_playout]
    rw [hterm, hrm]
  · intro s hp fuel r
    exact playout_safe g fuel s r hp
  · intro meas s hp hmeas r fuel hf
    exact playout_total g meas fuel s r hp hmeas hf

/-- C8 witness: the move-less non-terminal game aborts simulation at once,
while the immediately terminal game never aborts and returns its outcome. -/
theorem C8_witness :
    random_playout stuckG 1 () [] = PlayRes.violation ∧
    random_playout unitTerm 5 () [] ≠ PlayRes.violation ∧
    (∃ u r', random_playout unitTerm 1 () [] = PlayRes.ok u r') :=
  ⟨(C8_playout_contract stuckG).1 () 0 [] rfl rfl,
   (C8_playout_contract unitTerm).2.1 ()
     (fun s' _ ht => by simp [unitTerm] at ht) 5 [],
   (C8_playout_contract unitTerm).2.2 (fun _ => 0) ()
     (fun s' _ ht => by simp [unitTerm] at ht)
     (fun s' m _ hm => by simp [unitTerm] at hm) [] 1 (by decide)⟩

/-- C9, confirmed.  On every well-formed nonempty tree — in particular every
tree the worker builds, whatever the game — selection from the root
terminates (the fuelled walk returns within arena-size many steps, because
child indices strictly increase along the walk) and lands on an in-bounds
node that is terminal or childless.  The claim's premise that the state space
is finite and acyclic is not even needed: the arena structure alone bounds
the walk. -/
theorem C9_selection_terminates {σ μ υ α : Type _} [LinearOrder α]
    (g : Game σ μ υ) (score : Nat → Nat → Nat → α) (t : Tree σ)
    (hwf : WF t) (hne : 0 < t.nodes.length) :
    ∃ i nd, t.select g score = some i ∧ i < t.nodes.length ∧
      t.nodes[i]? = some nd ∧
      ((g.is_terminal_state nd.state).isSome ∨ nd.children = []) :=
  select_spec g score t hwf hne

/-- C9 witness: selection on the tied two-child tree returns a childless
leaf. -/
theorem C9_witness :
    WF tTie ∧ 0 < tTie.nodes.length ∧
    (∃ i nd, Tree.select twoMoves score0 tTie = some i ∧
      i < tTie.nodes.length ∧ tTie.nodes[i]? = some nd ∧
      ((twoMoves.is_terminal_state nd.state).isSome ∨ nd.children = [])) :=
  ⟨by decide, by decide,
    C9_selection_terminates twoMoves score0 tTie (by decide) (by decide)⟩

/-- C10, confirmed.  For every termination predicate, a completing worker
reports exactly one less than the number of loop-body executions it
performed (the counter is tested before its final increment), and the root's
visit count on completion is the reported count plus 2: the creation
baseline of 1 plus one backpropagation per performed iteration. -/
theorem C10_reported_vs_performed {σ μ υ α : Type _} [LinearOrder α]
    (g : Game σ μ υ) (score : Nat → Nat → Nat → α) (playFuel : Nat)
    (cond : Nat → Nat → Bool) (nthreads fuel : Nat) (s : σ) (r : List Nat)
    (out : WorkerOut σ)
    (h : runWorkerFromScratch g score playFuel cond nthreads fuel s r = some out) :
    out.performed = out.reported + 1 ∧
    (out.tree.nodes[0]?).map Node.n = some (out.reported + 2) := by
  unfold runWorkerFromScratch at h
  obtain ⟨ht0nodes, ht0wf⟩ := t0_spec s
  obtain ⟨h1, h2, h3, h4⟩ :=
    runWorker_count g score playFuel cond nthreads fuel _ r 0 0 out h
  obtain ⟨hwfout, hroot⟩ :=
    runWorker_tree g score playFuel cond nthreads fuel _ r 0 0 out ht0wf
      (by rw [ht0nodes]; simp) h
  have hnd0 : (((Tree.mk []).add_node_with_parent (Node.new s none)).1 : Tree σ).nodes[0]?
      = some (Node.new s none) := by
    rw [ht0nodes]
    rfl
  obtain ⟨nd0', hh1, hh2⟩ := hroot (Node.new s none) hnd0
  refine ⟨by omega, ?_⟩
  rw [hh1]
  simp only [Option.map_some']
  congr 1
  have hbase : (Node.new s none : Node σ).n = 1 := rfl
  omega

/-- C10 witness: a concrete completed worker (condition fires at once):
reported 0, performed 1, root visits 2. -/
theorem C10_witness :
    (⟨0, 1, ⟨[⟨2, 1, (), [], none⟩]⟩, []⟩ : WorkerOut Unit).performed =
      (⟨0, 1, ⟨[⟨2, 1, (), [], none⟩]⟩, []⟩ : WorkerOut Unit).reported + 1 ∧
    ((⟨0, 1, ⟨[⟨2, 1, (), [], none⟩]⟩, []⟩ : WorkerOut Unit).tree.nodes[0]?).map Node.n =
      some ((⟨0, 1, ⟨[⟨2, 1, (), [], none⟩]⟩, []⟩ : WorkerOut Unit).reported + 2) :=
  C10_reported_vs_performed unitTerm score0 0 (fun _ _ => true) 1 3 () []
    ⟨0, 1, ⟨[⟨2, 1, (), [], none⟩]⟩, []⟩ (by decide)

end Claims

end Yamcts
